import Mathlib

/-!
Verification of the commit-graph rendering engine
(`pkg/gui/presentation/graph/graph.go` of lazygit).

The Go source is shallowly embedded: pipes, commits and pipe-set
construction (`getNextPipes`, `GetPipeSets`), the per-row cell renderer
(`renderPipeSet`) and the chunked renderer (`RenderAux`,
`RenderCommitGraph`) are translated into executable Lean functions.
Lanes are natural numbers, hashes are strings, styles are opaque numeric
tokens (the style package is external to the engine and never inspected
by it).
-/

namespace LazygitGraph

/-- Lifecycle kind of a pipe segment, in the declaration order of the Go
source (iota): TERMINATES, STARTS, CONTINUES. -/
inductive PipeKind where
  | TERMINATES
  | STARTS
  | CONTINUES
deriving DecidableEq

/-- Numeric ordinal of a pipe kind, matching the Go iota values
TERMINATES = 0, STARTS = 1, CONTINUES = 2. -/
def PipeKind.ord : PipeKind → Nat
  | .TERMINATES => 0
  | .STARTS => 1
  | .CONTINUES => 2

/-- An edge segment valid for exactly one row (Go struct `Pipe`).
Styles are opaque numeric tokens. -/
structure Pipe where
  fromPos : Nat
  toPos : Nat
  fromHash : String
  toHash : String
  kind : PipeKind
  style : Nat
deriving DecidableEq

def Pipe.left (p : Pipe) : Nat := min p.fromPos p.toPos

def Pipe.right (p : Pipe) : Nat := max p.fromPos p.toPos

/-- Modelled from the spec: the commit record (`models.Commit`, whose file is
not under src/) exposes a hash and an ordered list of parent hashes. -/
structure Commit where
  hash : String
  parents : List String
deriving DecidableEq

/-- Modelled from the spec: `IsMerge` is the derived merge flag,
parent count > 1 (`models.Commit.IsMerge`, not under src/). -/
def Commit.isMerge (c : Commit) : Bool := decide (1 < c.parents.length)

/-- Modelled from the spec: the sentinel "empty tree" marker used as the
destination of a root commit's pipe (`models.EmptyTreeCommitHash`, not under
src/); a reserved hash distinct from any hash used in the examples here. -/
def EmptyTreeCommitHash : String := "4b825dc642cb6eb9a060e54bf8d69288fbee4904"

/-- Go `equalHashes`: false when either operand is empty, otherwise the two
strings are compared after truncation to the shorter length. -/
def equalHashes (a b : String) : Bool :=
  if a = "" ∨ b = "" then false
  else
    let length := min a.length b.length
    decide (a.data.take length = b.data.take length)

/-- The two lane-tracking sets of `getNextPipes`: `taken` (lanes some pipe
ends on) and `traversed` (lanes some pipe starts on, ends on, or passes
through), represented as lists used only through membership. -/
structure Spots where
  taken : List Nat
  traversed : List Nat
deriving DecidableEq

/-- All lanes between `a` and `b` inclusive, in either order. -/
def spanList (a b : Nat) : List Nat :=
  List.range' (min a b) (max a b + 1 - min a b)

/-- Go closure `traverse(from, to)`: mark every lane of the span as
traversed and the destination as taken. -/
def Spots.traverse (s : Spots) (a b : Nat) : Spots :=
  ⟨b :: s.taken, spanList a b ++ s.traversed⟩

/-- Bounded linear scan for the smallest lane not in `l`, starting at `i`
with the given fuel. -/
def leastNotInAux (l : List Nat) : Nat → Nat → Nat
  | i, 0 => i
  | i, fuel + 1 => if i ∈ l then leastNotInAux l (i + 1) fuel else i

/-- The smallest lane not in `l` (Go loops `getNextAvailablePos...`, which
scan 0, 1, 2, ... until a free spot is found; a fuel of `l.length + 1`
always suffices). -/
def leastNotIn (l : List Nat) : Nat := leastNotInAux l 0 (l.length + 1)

/-- The descending scan of the third Go loop: starting at lane `i` with
current candidate `last`, walk left while lanes are free, stopping at the
first taken or traversed lane. -/
def slideLeftGo (s : Spots) : Nat → Nat → Nat → Nat
  | _, last, 0 => last
  | i, last, fuel + 1 =>
    if i ∈ s.taken ∨ i ∈ s.traversed then last
    else slideLeftGo s (i - 1) i fuel

/-- Go third loop: a pipe right of the commit slides left from its lane
toward (but not below) `pos + 1`, stopping at the first blocked lane. -/
def slideLeft (s : Spots) (toPos pos : Nat) : Nat :=
  slideLeftGo s toPos toPos (toPos - pos)

/-- First Go loop of `getNextPipes` over `currentPipes`: a pipe whose
destination hash matches the commit terminates into `pos`; a non-matching
pipe left of `pos` continues into the smallest non-traversed lane. -/
def pass1 (commit : Commit) (pos : Nat) : List Pipe → Spots → List Pipe × Spots
  | [], s => ([], s)
  | pipe :: rest, s =>
    if equalHashes pipe.toHash commit.hash then
      let r := pass1 commit pos rest (s.traverse pipe.toPos pos)
      (⟨pipe.toPos, pos, pipe.fromHash, pipe.toHash, .TERMINATES, pipe.style⟩ :: r.1, r.2)
    else if pipe.toPos < pos then
      let availablePos := leastNotIn s.traversed
      let r := pass1 commit pos rest (s.traverse pipe.toPos availablePos)
      (⟨pipe.toPos, availablePos, pipe.fromHash, pipe.toHash, .CONTINUES, pipe.style⟩ :: r.1, r.2)
    else
      pass1 commit pos rest s

/-- Merge loop of `getNextPipes`: one STARTS pipe per parent after the
first, each into the smallest lane neither taken nor traversed by a
continuing pipe's old lane, which is then marked taken. -/
def mergePass (chash : String) (sty pos : Nat) (travCont : List Nat) :
    List String → Spots → List Pipe × Spots
  | [], s => ([], s)
  | parent :: rest, s =>
    let availablePos := leastNotIn (s.taken ++ travCont)
    let r := mergePass chash sty pos travCont rest ⟨availablePos :: s.taken, s.traversed⟩
    (⟨pos, availablePos, chash, parent, .STARTS, sty⟩ :: r.1, r.2)

/-- Third Go loop of `getNextPipes`: a non-matching pipe right of `pos`
continues, sliding left as far as the free lanes allow. -/
def pass3 (commit : Commit) (pos : Nat) : List Pipe → Spots → List Pipe × Spots
  | [], s => ([], s)
  | pipe :: rest, s =>
    if equalHashes pipe.toHash commit.hash then pass3 commit pos rest s
    else if pos < pipe.toPos then
      let last := slideLeft s pipe.toPos pos
      let r := pass3 commit pos rest (s.traverse pipe.toPos last)
      (⟨pipe.toPos, last, pipe.fromHash, pipe.toHash, .CONTINUES, pipe.style⟩ :: r.1, r.2)
    else
      pass3 commit pos rest s

/-- The sort order of the final `slices.SortFunc`: ascending destination
lane, ties broken by the kind ordinal. -/
def pipeLe (a b : Pipe) : Prop :=
  a.toPos < b.toPos ∨ (a.toPos = b.toPos ∧ a.kind.ord ≤ b.kind.ord)

instance : DecidableRel pipeLe := fun a b => by unfold pipeLe; exact inferInstance

instance : IsTotal Pipe pipeLe := ⟨by intro a b; unfold pipeLe; omega⟩

instance : IsTrans Pipe pipeLe := ⟨by intro a b c; unfold pipeLe; omega⟩

/-- Maximum destination lane among the previous pipes (first Go loop of
`getNextPipes`). -/
def maxToPos (pipes : List Pipe) : Nat :=
  pipes.foldl (fun m p => max m p.toPos) 0

/-- `currentPipes`: the previous pipes that did not terminate. -/
def currentOf (prev : List Pipe) : List Pipe :=
  prev.filter (fun p => decide (p.kind ≠ PipeKind.TERMINATES))

/-- The commit's own lane: the lane of the first surviving pipe whose
destination hash matches the commit, else `maxPos + 1`. -/
def posOf (cur : List Pipe) (c : Commit) (m : Nat) : Nat :=
  match cur.find? (fun p => equalHashes p.toHash c.hash) with
  | some p => p.toPos
  | none => m + 1

/-- The first STARTS pipe: toward the first parent, or toward the sentinel
for a root commit. -/
def initialPipesOf (c : Commit) (pos sty : Nat) : List Pipe :=
  match c.parents with
  | parent :: _ => [⟨pos, pos, c.hash, parent, .STARTS, sty⟩]
  | [] => [⟨pos, pos, c.hash, EmptyTreeCommitHash, .STARTS, sty⟩]

/-- `traversedSpotsForContinuingPipes`: the old lanes of all surviving
pipes that do not match the commit. -/
def travContOf (cur : List Pipe) (c : Commit) : List Nat :=
  (cur.filter (fun p => !equalHashes p.toHash c.hash)).map (fun p => p.toPos)

/-- The pipe list `getNextPipes` builds before its final sort, in emission
order: first STARTS pipe, first loop, merge loop, third loop. -/
def builtOf (prevPipes : List Pipe) (commit : Commit) (getStyle : Commit → Nat) : List Pipe :=
  let cur := currentOf prevPipes
  let pos := posOf cur commit (maxToPos prevPipes)
  let r1 := pass1 commit pos cur ⟨[], []⟩
  let r2 :=
    if commit.isMerge then
      mergePass commit.hash (getStyle commit) pos (travContOf cur commit) commit.parents.tail r1.2
    else ([], r1.2)
  let r3 := pass3 commit pos cur r2.2
  initialPipesOf commit pos (getStyle commit) ++ r1.1 ++ r2.1 ++ r3.1

/-- Go `getNextPipes`: build the new row's pipes from the previous row's
pipes and the current commit, then sort by destination lane and kind. -/
def getNextPipes (prevPipes : List Pipe) (commit : Commit) (getStyle : Commit → Nat) : List Pipe :=
  List.insertionSort pipeLe (builtOf prevPipes commit getStyle)

/-- Style token for `style.FgDefault` (styles are opaque to the engine). -/
def fgDefault : Nat := 0

/-- Style token for the fixed highlight style
(`style.FgLightWhite.SetBold()`). -/
def highlightStyle : Nat := 1

/-- The synthetic seed pipe of `GetPipeSets`: lane 0 to 0, from the
distinguished "START" marker to the first commit's hash. -/
def seedPipe (h : String) : Pipe :=
  ⟨0, 0, "START", h, .STARTS, fgDefault⟩

/-- The stateful fold of `GetPipeSets` (`lo.Map` with the closure-captured
`pipes`): one output row per commit, each feeding the next step. -/
def pipeSetsAux (getStyle : Commit → Nat) : List Pipe → List Commit → List (List Pipe)
  | _, [] => []
  | pipes, c :: cs =>
    let next := getNextPipes pipes c getStyle
    next :: pipeSetsAux getStyle next cs

/-- The seed row fed into the fold (empty for an empty commit list). -/
def seedListOf : List Commit → List Pipe
  | [] => []
  | c :: _ => [seedPipe c.hash]

/-- Go `GetPipeSets`: nil for an empty commit list, else the fold of
`getNextPipes` over the commits, seeded with the synthetic pipe. -/
def GetPipeSets (commits : List Commit) (getStyle : Commit → Nat) : List (List Pipe) :=
  match commits with
  | [] => []
  | _ :: _ => pipeSetsAux getStyle (seedListOf commits) commits

/-- Semantic type of a rendered cell: plain connection, commit marker or
merge marker. -/
inductive CellType where
  | CONNECTION
  | COMMIT
  | MERGE
deriving DecidableEq

/-- Modelled from the spec: the per-lane render state of one row (the Cell
implementation file is not under src/): up/down/left/right connector
flags, a style, a separately tracked right-connector style honoring the
override discipline, and a semantic type. -/
structure Cell where
  up : Bool
  down : Bool
  left : Bool
  right : Bool
  style : Nat
  rightStyle : Option Nat
  cellType : CellType
deriving DecidableEq

/-- The blank cell every lane starts a row with: no connectors, default
style, CONNECTION type. -/
def emptyCell : Cell :=
  ⟨false, false, false, false, fgDefault, none, .CONNECTION⟩

/-- Modelled from the spec: set the up connector with the given style. -/
def Cell.setUp (c : Cell) (s : Nat) : Cell := { c with up := true, style := s }

/-- Modelled from the spec: set the down connector with the given style. -/
def Cell.setDown (c : Cell) (s : Nat) : Cell := { c with down := true, style := s }

/-- Modelled from the spec: set the left connector with the given style. -/
def Cell.setLeft (c : Cell) (s : Nat) : Cell := { c with left := true, style := s }

/-- Modelled from the spec: set the right connector; the right-connector
style is overwritten only when unset or when the caller may override. -/
def Cell.setRight (c : Cell) (s : Nat) (ov : Bool) : Cell :=
  { c with right := true,
           rightStyle := if ov ∨ c.rightStyle = none then some s else c.rightStyle }

/-- Modelled from the spec: reset a cell to the blank state. -/
def Cell.reset (_ : Cell) : Cell := emptyCell

/-- Modelled from the spec: force a cell's style. -/
def Cell.setStyle (c : Cell) (s : Nat) : Cell := { c with style := s }

/-- Modelled from the spec: set a cell's semantic type. -/
def Cell.setType (c : Cell) (t : CellType) : Cell := { c with cellType := t }

/-- Modelled from the spec: serialize one cell (its connector flags,
semantic type and style data) into the text line. -/
def Cell.render (c : Cell) : String :=
  let t : Char :=
    match c.cellType with
    | .CONNECTION => 'c'
    | .COMMIT => 'o'
    | .MERGE => 'M'
  String.mk [t,
    if c.up then 'u' else '.',
    if c.down then 'd' else '.',
    if c.left then 'l' else '.',
    if c.right then 'r' else '.'] ++
  Nat.repr c.style ++
  (match c.rightStyle with
   | none => ""
   | some s => Nat.repr s)

/-- Apply `f` to the cell at lane `i` (all lanes touched by
`renderPipeSet` are in range, matching the Go array writes). -/
def modifyCell (cells : List Cell) (i : Nat) (f : Cell → Cell) : List Cell :=
  match cells.get? i with
  | some c => cells.set i (f c)
  | none => cells

/-- Go closure `renderPipe`: paint one pipe's horizontal span and its
up/down connectors onto the cells. -/
def renderPipeCells (cells : List Cell) (pipe : Pipe) (s : Nat) (ov : Bool) : List Cell :=
  let l := pipe.left
  let r := pipe.right
  let cells :=
    if l ≠ r then
      let cells := (List.range' (l + 1) (r - (l + 1))).foldl
        (fun cs i => modifyCell cs i (fun c => (c.setLeft s).setRight s ov)) cells
      let cells := modifyCell cells l (fun c => c.setRight s ov)
      modifyCell cells r (fun c => c.setLeft s)
    else cells
  let cells :=
    if pipe.kind = .STARTS ∨ pipe.kind = .CONTINUES then
      modifyCell cells pipe.toPos (fun c => c.setDown s)
    else cells
  if pipe.kind = .TERMINATES ∨ pipe.kind = .CONTINUES then
    modifyCell cells pipe.fromPos (fun c => c.setUp s)
  else cells

/-- Go `renderPipeSet`: render one row's pipe set (plus selection state and
the previous commit) into one text line. -/
def renderPipeSet (pipes : List Pipe) (selectedCommitHash : String)
    (prevCommit : Option Commit) : String :=
  let maxPos := pipes.foldl (fun m p => max m p.right) 0
  let scan := pipes.foldl
    (fun (acc : Nat × Nat) p =>
      match p.kind with
      | .STARTS => (p.fromPos, acc.2 + 1)
      | .TERMINATES => (p.toPos, acc.2)
      | .CONTINUES => acc) (0, 0)
  let commitPos := scan.1
  let isMerge := 1 < scan.2
  let cells0 := List.replicate (maxPos + 1) emptyCell
  let highlight :=
    match prevCommit with
    | some prev =>
      if equalHashes prev.hash selectedCommitHash then
        pipes.any (fun p => equalHashes p.fromHash selectedCommitHash &&
          (decide (p.kind ≠ PipeKind.TERMINATES) || decide (p.fromPos ≠ p.toPos)))
      else true
    | none => true
  let parts := pipes.partition (fun p => highlight && equalHashes p.fromHash selectedCommitHash)
  let selectedPipes := parts.1
  let nonSelectedPipes := parts.2
  let cells1 := nonSelectedPipes.foldl
    (fun cs p => if p.kind = .STARTS then renderPipeCells cs p p.style true else cs) cells0
  let cells2 := nonSelectedPipes.foldl
    (fun cs p =>
      if p.kind ≠ PipeKind.STARTS ∧
          ¬(p.kind = PipeKind.TERMINATES ∧ p.fromPos = commitPos ∧ p.toPos = commitPos)
      then renderPipeCells cs p p.style false else cs) cells1
  let cells3 := selectedPipes.foldl
    (fun cs p =>
      (List.range' p.left (p.right + 1 - p.left)).foldl
        (fun cs2 i => modifyCell cs2 i Cell.reset) cs) cells2
  let cells4 := selectedPipes.foldl
    (fun cs p =>
      let cs := renderPipeCells cs p highlightStyle true
      if p.toPos = commitPos then modifyCell cs p.toPos (fun c => c.setStyle highlightStyle)
      else cs) cells3
  let cType := if isMerge then CellType.MERGE else CellType.COMMIT
  let cells5 := modifyCell cells4 commitPos (fun c => c.setType cType)
  String.join (cells5.map Cell.render)

/-- Row `k` of the sequential rendering: the row's own pipe set together
with the immediately preceding commit (none for the first row). -/
def renderRow (pipeSets : List (List Pipe)) (commits : List Commit) (sel : String)
    (k : Nat) : String :=
  renderPipeSet (pipeSets.getD k []) sel
    (if 0 < k then commits.get? (k - 1) else none)

/-- Go `RenderAux`: the index range is split into `workerCount` contiguous
chunks by floor division, the last chunk absorbing the remainder; each
chunk's rows are rendered independently and the chunk outputs are
concatenated in chunk order.  The goroutine fan-out computes exactly these
chunk lists (each worker owns its chunk exclusively), so the parallel run
is embedded as the deterministic per-chunk computation.  The Go code takes
the worker count from `runtime.GOMAXPROCS(0)` (always at least 1); here it
is the explicit parameter `workerCount`. -/
def RenderAux (pipeSets : List (List Pipe)) (commits : List Commit)
    (selectedCommitHash : String) (workerCount : Nat) : List String :=
  let perProc := pipeSets.length / workerCount
  let chunks := (List.range workerCount).map (fun i =>
    let fromIdx := i * perProc
    let toIdx := if i = workerCount - 1 then pipeSets.length else (i + 1) * perProc
    (((pipeSets.drop fromIdx).take (toIdx - fromIdx)).enum).map (fun pr =>
      renderPipeSet pr.2 selectedCommitHash
        (if 0 < fromIdx + pr.1 then commits.get? (fromIdx + pr.1 - 1) else none)))
  chunks.flatten

/-- Spec-side sequential rendering (for the refinement claim about
`RenderAux`): the line sequence whose k-th line is the render of the k-th
pipe set with the (k-1)-th commit as previous commit. -/
def seqRenderSpec (pipeSets : List (List Pipe)) (commits : List Commit)
    (sel : String) : List String :=
  (List.range pipeSets.length).map (renderRow pipeSets commits sel)

/-- Go `RenderCommitGraph`: nil for an empty pipe-set list, else the
chunked rendering of the pipe sets obtained from the commits. -/
def RenderCommitGraph (commits : List Commit) (selectedCommitHash : String)
    (getStyle : Commit → Nat) (workerCount : Nat) : List String :=
  let pipeSets := GetPipeSets commits getStyle
  if pipeSets.length = 0 then []
  else RenderAux pipeSets commits selectedCommitHash workerCount

/-- The row invariant of claim C1: no two non-terminating pipes of the row
share a destination lane. -/
def NonTermDistinct (l : List Pipe) : Prop :=
  (currentOf l).Pairwise (fun a b => a.toPos ≠ b.toPos)

instance (l : List Pipe) : Decidable (NonTermDistinct l) := by
  unfold NonTermDistinct; exact inferInstance

/-- Whether some surviving pipe of the row matches the commit (the commit
has a visible descendant, so its own lane is a reused lane). -/
def matchedBool (pipes : List Pipe) (c : Commit) : Bool :=
  (currentOf pipes).any (fun p => equalHashes p.toHash c.hash)

/-- Trace condition for the amended C1: along the fold, every commit with
two or more parents is matched by a surviving pipe of the previous row. -/
def goodTrace (getStyle : Commit → Nat) : List Pipe → List Commit → Bool
  | _, [] => true
  | pipes, c :: cs =>
    (decide (c.parents.length ≤ 1) || matchedBool pipes c) &&
      goodTrace getStyle (getNextPipes pipes c getStyle) cs

/-! ### Concrete inputs used by counterexamples and witnesses -/

/-- A style lookup assigning the default style to every commit. -/
def noStyle : Commit → Nat := fun _ => 0

def hashA : String := "a"

def hashX : String := "x"

def hashB : String := "b"

def hashP : String := "p"

def hashQ : String := "q"

/-- The linear chain C3 -> C2 -> C1 of the spec's first scenario
(C1 the root, list in history order). -/
def chainCommits : List Commit := [⟨"c3", ["c2"]⟩, ⟨"c2", ["c1"]⟩, ⟨"c1", []⟩]

/-- A history-ordered list as produced by a multi-root log: commit `a`
(parent `x` absent from the list), then merge commit `b` with parents
`p` and `q` where nothing in the list points at `b`, then root `p`. -/
def mergeDropCommits : List Commit := [⟨hashA, [hashX]⟩, ⟨hashB, [hashP, hashQ]⟩, ⟨hashP, []⟩]

def hashEmpty : String := ""

def hashAbc : String := "abc"

def hashAb : String := "ab"

def hashAbd : String := "abd"

def hashAbcd : String := "abcd"

def hashAbcdef : String := "abcdef"

def hashAbcx : String := "abcx"

def hashAbcy : String := "abcy"

/-! ### Hash comparison -/

lemma take_min_eq_iff_of_le (x y : List Char) (h : x.length ≤ y.length) :
    (x.take (min x.length y.length) = y.take (min x.length y.length)) ↔
      (x <+: y ∨ y <+: x) := by
  rw [Nat.min_eq_left h, List.take_length]
  constructor
  · intro he
    exact Or.inl (List.prefix_iff_eq_take.mpr he)
  · rintro (hp | hp)
    · exact List.prefix_iff_eq_take.mp hp
    · have hxy : y = x := hp.eq_of_length_le h
      subst hxy
      simp

lemma take_min_eq_iff (x y : List Char) :
    (x.take (min x.length y.length) = y.take (min x.length y.length)) ↔
      (x <+: y ∨ y <+: x) := by
  rcases Nat.le_total x.length y.length with h | h
  · exact take_min_eq_iff_of_le x y h
  · rw [Nat.min_comm, eq_comm, or_comm]
    exact take_min_eq_iff_of_le y x h

/-- C5: `equalHashes` returns false whenever either operand is the empty
string; for non-empty operands it returns true exactly when one string is
a prefix of the other (equality up to the shorter length); in particular
on the examples given in the spec. -/
theorem equalHashes_characterization :
    (∀ a b : String, equalHashes a b = true ↔
        (a ≠ "" ∧ b ≠ "" ∧ (a.data <+: b.data ∨ b.data <+: a.data))) ∧
    equalHashes hashEmpty hashAbc = false ∧
    equalHashes hashAbcd hashAbcdef = true ∧
    equalHashes hashAbcx hashAbcy = false := by
  refine ⟨fun a b => ?_, by decide, by decide, by decide⟩
  unfold equalHashes
  split
  · rename_i h
    simp only [Bool.false_eq_true, false_iff, not_and]
    intro ha hb
    rcases h with h | h
    · exact absurd h ha
    · exact absurd h hb
  · rename_i h
    push_neg at h
    simp only [decide_eq_true_eq]
    have hla : a.length = a.data.length := rfl
    have hlb : b.length = b.data.length := rfl
    rw [hla, hlb, take_min_eq_iff]
    simp [h.1, h.2]

/-- C10: prefix hash equality is not transitive: "ab" matches both "abc"
and "abd", which do not match each other. -/
theorem equalHashes_not_transitive :
    equalHashes hashAb hashAbc = true ∧ equalHashes hashAb hashAbd = true ∧
    equalHashes hashAbc hashAbd = false := by decide

/-! ### Sortedness of the output rows -/

/-- C7: every pipe list returned by `getNextPipes` is sorted ascending by
destination lane with ties broken by the kind ordinal, and that ordinal
fixes TERMINATES < STARTS < CONTINUES. -/
theorem getNextPipes_sorted (prevPipes : List Pipe) (commit : Commit)
    (getStyle : Commit → Nat) :
    PipeKind.TERMINATES.ord < PipeKind.STARTS.ord ∧
    PipeKind.STARTS.ord < PipeKind.CONTINUES.ord ∧
    List.Sorted pipeLe (getNextPipes prevPipes commit getStyle) :=
  ⟨by decide, by decide, List.sorted_insertionSort pipeLe _⟩

/-! ### The linear chain scenario -/

/-- C8 counterexample: on the linear chain the fold yields 3 rows, but it
is not true that each row contains exactly one pipe at lane 0 — every row
contains two pipes there (a TERMINATES pipe and a STARTS pipe). -/
theorem chain_rows_not_single_pipe :
    (GetPipeSets chainCommits noStyle).length = 3 ∧
    ¬ (∀ row ∈ GetPipeSets chainCommits noStyle,
        (row.filter (fun p => decide (p.toPos = 0))).length = 1) := by decide

/-- C8 amended: the three rows of the linear chain, computed exactly: each
row holds one TERMINATES pipe into lane 0 and one STARTS pipe at lane 0;
the final (root) row's STARTS pipe targets the sentinel; the first row's
TERMINATES pipe comes from the synthetic START marker. -/
theorem chain_pipe_sets :
    GetPipeSets chainCommits noStyle =
      [[⟨0, 0, "START", "c3", .TERMINATES, 0⟩, ⟨0, 0, "c3", "c2", .STARTS, 0⟩],
       [⟨0, 0, "c3", "c2", .TERMINATES, 0⟩, ⟨0, 0, "c2", "c1", .STARTS, 0⟩],
       [⟨0, 0, "c2", "c1", .TERMINATES, 0⟩,
        ⟨0, 0, "c1", EmptyTreeCommitHash, .STARTS, 0⟩]] := by decide

/-! ### Counterexamples from the multi-root merge input -/

/-- C1 counterexample: a reachable row of the fold (the merge commit `b`'s
row on `mergeDropCommits`) contains two non-terminating pipes sharing
destination lane 1. -/
theorem merge_collision_row :
    [(⟨0, 0, hashA, hashX, .CONTINUES, 0⟩ : Pipe),
     ⟨1, 1, hashB, hashP, .STARTS, 0⟩, ⟨1, 1, hashB, hashQ, .STARTS, 0⟩]
        ∈ GetPipeSets mergeDropCommits noStyle ∧
    ¬ NonTermDistinct
      [⟨0, 0, hashA, hashX, .CONTINUES, 0⟩,
       ⟨1, 1, hashB, hashP, .STARTS, 0⟩, ⟨1, 1, hashB, hashQ, .STARTS, 0⟩] := by decide

/-- C2 counterexample: commit `b` has 2 parents, and its row's two STARTS
pipes both target lane 1 — the destination lanes are not distinct. -/
theorem merge_starts_collision :
    2 ≤ ((⟨hashB, [hashP, hashQ]⟩ : Commit)).parents.length ∧
    (((GetPipeSets mergeDropCommits noStyle).getD 1 []).filter
        (fun p => decide (p.kind = PipeKind.STARTS))).map Pipe.toPos = [1, 1] := by decide

/-- C6 counterexample: the second row of `mergeDropCommits` carries a
non-terminating pipe toward `q` that does not match the next commit `p`,
yet the third row contains no pipe with destination hash `q` at all — the
edge is silently dropped rather than continued. -/
theorem dropped_edge :
    (∃ p ∈ (GetPipeSets mergeDropCommits noStyle).getD 1 [],
        p.kind ≠ PipeKind.TERMINATES ∧ equalHashes p.toHash hashP = false ∧
        p.toHash = hashQ) ∧
    (∀ q ∈ (GetPipeSets mergeDropCommits noStyle).getD 2 [], q.toHash ≠ hashQ) := by decide

/-! ### Basic facts about spans, free-lane search and the lane maximum -/

lemma mem_spanList {i a b : Nat} : i ∈ spanList a b ↔ min a b ≤ i ∧ i ≤ max a b := by
  unfold spanList
  rw [List.mem_range'_1]
  omega

lemma leastNotInAux_skipped (l : List Nat) :
    ∀ (fuel i j : Nat), i ≤ j → j < leastNotInAux l i fuel → j ∈ l := by
  intro fuel
  induction fuel with
  | zero =>
    intro i j hij hlt
    simp only [leastNotInAux] at hlt
    omega
  | succ n ih =>
    intro i j hij hlt
    simp only [leastNotInAux] at hlt
    split at hlt
    · rename_i hi
      rcases Nat.eq_or_lt_of_le hij with rfl | hlt2
      · exact hi
      · exact ih (i + 1) j hlt2 hlt
    · omega

lemma leastNotInAux_free_or_exhausted (l : List Nat) :
    ∀ (fuel i : Nat), leastNotInAux l i fuel ∉ l ∨ leastNotInAux l i fuel = i + fuel := by
  intro fuel
  induction fuel with
  | zero =>
    intro i
    right
    simp [leastNotInAux]
  | succ n ih =>
    intro i
    simp only [leastNotInAux]
    split
    · rcases ih (i + 1) with h | h
      · exact Or.inl h
      · right
        omega
    · left
      assumption

lemma leastNotIn_not_mem (l : List Nat) : leastNotIn l ∉ l := by
  unfold leastNotIn
  rcases leastNotInAux_free_or_exhausted l (l.length + 1) 0 with h | h
  · exact h
  · exfalso
    have hsub : List.range (l.length + 1) ⊆ l := by
      intro j hj
      rw [List.mem_range] at hj
      exact leastNotInAux_skipped l (l.length + 1) 0 j (Nat.zero_le j) (by omega)
    have hle := (List.subperm_of_subset (List.nodup_range _) hsub).length_le
    simp at hle

lemma leastNotIn_lt_mem (l : List Nat) (j : Nat) (h : j < leastNotIn l) : j ∈ l :=
  leastNotInAux_skipped l _ 0 j (Nat.zero_le j) h

lemma leastNotIn_eq (l : List Nat) (m : Nat) (hnm : m ∉ l) (hall : ∀ j < m, j ∈ l) :
    leastNotIn l = m := by
  rcases Nat.lt_trichotomy (leastNotIn l) m with h | h | h
  · exact absurd (hall _ h) (leastNotIn_not_mem l)
  · exact h
  · exact absurd (leastNotIn_lt_mem l m h) hnm

lemma foldl_max_init_le (l : List Pipe) : ∀ a : Nat, a ≤ l.foldl (fun m p => max m p.toPos) a := by
  induction l with
  | nil => intro a; simp
  | cons p rest ih =>
    intro a
    exact le_trans (Nat.le_max_left a p.toPos) (ih _)

lemma le_foldl_max (l : List Pipe) :
    ∀ (a : Nat) (p : Pipe), p ∈ l → p.toPos ≤ l.foldl (fun m p => max m p.toPos) a := by
  induction l with
  | nil =>
    intro a p hp
    simp at hp
  | cons q rest ih =>
    intro a p hp
    rcases List.mem_cons.mp hp with rfl | hp
    · exact le_trans (Nat.le_max_right _ _) (foldl_max_init_le rest _)
    · exact ih _ p hp

lemma le_maxToPos (l : List Pipe) (p : Pipe) (hp : p ∈ l) : p.toPos ≤ maxToPos l :=
  le_foldl_max l 0 p hp

/-! ### Monotonicity of the lane sets through the loops -/

lemma traverse_taken_mem (s : Spots) (a b i : Nat) (h : i ∈ s.taken) :
    i ∈ (s.traverse a b).taken := by
  simp [Spots.traverse, h]

lemma traverse_traversed_mem (s : Spots) (a b i : Nat) (h : i ∈ s.traversed) :
    i ∈ (s.traverse a b).traversed := by
  simp [Spots.traverse, h]

lemma pass1_taken_mono (c : Commit) (pos : Nat) :
    ∀ (pipes : List Pipe) (s : Spots) (i : Nat),
      i ∈ s.taken → i ∈ (pass1 c pos pipes s).2.taken := by
  intro pipes
  induction pipes with
  | nil =>
    intro s i h
    simpa [pass1] using h
  | cons pipe rest ih =>
    intro s i h
    simp only [pass1]
    split
    · exact ih _ i (traverse_taken_mem s _ _ i h)
    · split
      · exact ih _ i (traverse_taken_mem s _ _ i h)
      · exact ih _ i h

lemma pass1_traversed_mono (c : Commit) (pos : Nat) :
    ∀ (pipes : List Pipe) (s : Spots) (i : Nat),
      i ∈ s.traversed → i ∈ (pass1 c pos pipes s).2.traversed := by
  intro pipes
  induction pipes with
  | nil =>
    intro s i h
    simpa [pass1] using h
  | cons pipe rest ih =>
    intro s i h
    simp only [pass1]
    split
    · exact ih _ i (traverse_traversed_mem s _ _ i h)
    · split
      · exact ih _ i (traverse_traversed_mem s _ _ i h)
      · exact ih _ i h

lemma pass1_matched_taken (c : Commit) (pos : Nat) :
    ∀ (pipes : List Pipe) (s : Spots),
      (∃ p ∈ pipes, equalHashes p.toHash c.hash = true) →
      pos ∈ (pass1 c pos pipes s).2.taken := by
  intro pipes
  induction pipes with
  | nil =>
    rintro s ⟨p, hp, _⟩
    simp at hp
  | cons pipe rest ih =>
    rintro s ⟨p, hp, hmatch⟩
    rcases List.mem_cons.mp hp with rfl | hp
    · simp only [pass1, hmatch, if_true]
      exact pass1_taken_mono c pos rest _ pos (by simp [Spots.traverse])
    · simp only [pass1]
      split
      · exact ih _ ⟨p, hp, hmatch⟩
      · split
        · exact ih _ ⟨p, hp, hmatch⟩
        · exact ih _ ⟨p, hp, hmatch⟩

lemma mergePass_taken_mono (chash : String) (sty pos : Nat) (travCont : List Nat) :
    ∀ (parents : List String) (s : Spots) (i : Nat),
      i ∈ s.taken → i ∈ (mergePass chash sty pos travCont parents s).2.taken := by
  intro parents
  induction parents with
  | nil =>
    intro s i h
    simpa [mergePass] using h
  | cons parent rest ih =>
    intro s i h
    simp only [mergePass]
    exact ih _ i (by simp [h])

lemma mergePass_traversed_eq (chash : String) (sty pos : Nat) (travCont : List Nat) :
    ∀ (parents : List String) (s : Spots),
      (mergePass chash sty pos travCont parents s).2.traversed = s.traversed := by
  intro parents
  induction parents with
  | nil =>
    intro s
    simp [mergePass]
  | cons parent rest ih =>
    intro s
    simp only [mergePass]
    exact ih _

/-! ### Shape of the pipes emitted by each loop -/

lemma pass1_shape (c : Commit) (pos : Nat) :
    ∀ (pipes : List Pipe) (s : Spots) (q : Pipe), q ∈ (pass1 c pos pipes s).1 →
      (q.kind = PipeKind.TERMINATES ∧ q.toPos = pos) ∨ q.kind = PipeKind.CONTINUES := by
  intro pipes
  induction pipes with
  | nil =>
    intro s q hq
    simp [pass1] at hq
  | cons pipe rest ih =>
    intro s q hq
    simp only [pass1] at hq
    split at hq
    · rcases List.mem_cons.mp hq with rfl | hq
      · exact Or.inl ⟨rfl, rfl⟩
      · exact ih _ q hq
    · split at hq
      · rcases List.mem_cons.mp hq with rfl | hq
        · exact Or.inr rfl
        · exact ih _ q hq
      · exact ih _ q hq

lemma mergePass_shape (chash : String) (sty pos : Nat) (travCont : List Nat) :
    ∀ (parents : List String) (s : Spots) (q : Pipe),
      q ∈ (mergePass chash sty pos travCont parents s).1 →
      q.kind = PipeKind.STARTS ∧ q.fromPos = pos ∧ q.fromHash = chash := by
  intro parents
  induction parents with
  | nil =>
    intro s q hq
    simp [mergePass] at hq
  | cons parent rest ih =>
    intro s q hq
    simp only [mergePass] at hq
    rcases List.mem_cons.mp hq with rfl | hq
    · exact ⟨rfl, rfl, rfl⟩
    · exact ih _ q hq

lemma pass3_shape (c : Commit) (pos : Nat) :
    ∀ (pipes : List Pipe) (s : Spots) (q : Pipe), q ∈ (pass3 c pos pipes s).1 →
      q.kind = PipeKind.CONTINUES := by
  intro pipes
  induction pipes with
  | nil =>
    intro s q hq
    simp [pass3] at hq
  | cons pipe rest ih =>
    intro s q hq
    simp only [pass3] at hq
    split at hq
    · exact ih _ q hq
    · split at hq
      · rcases List.mem_cons.mp hq with rfl | hq
        · exact rfl
        · exact ih _ q hq
      · exact ih _ q hq

lemma initialPipesOf_shape (c : Commit) (pos sty : Nat) (q : Pipe)
    (hq : q ∈ initialPipesOf c pos sty) :
    q.kind = PipeKind.STARTS ∧ q.fromPos = pos ∧ q.toPos = pos ∧ q.fromHash = c.hash := by
  unfold initialPipesOf at hq
  split at hq <;>
  · simp only [List.mem_singleton] at hq
    subst hq
    exact ⟨rfl, rfl, rfl, rfl⟩

lemma initialPipesOf_exists (c : Commit) (pos sty : Nat) :
    ∃ q ∈ initialPipesOf c pos sty, q.kind = PipeKind.STARTS ∧ q.fromPos = pos := by
  unfold initialPipesOf
  split
  · exact ⟨_, List.mem_singleton.mpr rfl, rfl, rfl⟩
  · exact ⟨_, List.mem_singleton.mpr rfl, rfl, rfl⟩

lemma mem_getNextPipes (prev : List Pipe) (c : Commit) (st : Commit → Nat) (q : Pipe) :
    q ∈ getNextPipes prev c st ↔ q ∈ builtOf prev c st :=
  List.mem_insertionSort pipeLe

/-! ### C9: the commit's own lane is well defined in every row -/

lemma getNextPipes_commit_lane (prev : List Pipe) (c : Commit) (st : Commit → Nat) :
    ∃ lane, (∃ p ∈ getNextPipes prev c st, p.kind = PipeKind.STARTS ∧ p.fromPos = lane) ∧
      (∀ p ∈ getNextPipes prev c st, p.kind = PipeKind.STARTS → p.fromPos = lane) ∧
      (∀ p ∈ getNextPipes prev c st, p.kind = PipeKind.TERMINATES → p.toPos = lane) := by
  refine ⟨posOf (currentOf prev) c (maxToPos prev), ?_, ?_, ?_⟩
  · obtain ⟨q, hq, hk, hf⟩ :=
      initialPipesOf_exists c (posOf (currentOf prev) c (maxToPos prev)) (st c)
    refine ⟨q, ?_, hk, hf⟩
    rw [mem_getNextPipes]
    simp only [builtOf, List.mem_append]
    exact Or.inl (Or.inl (Or.inl hq))
  · intro p hp hk
    rw [mem_getNextPipes] at hp
    simp only [builtOf, List.mem_append] at hp
    rcases hp with ((hp | hp) | hp) | hp
    · exact (initialPipesOf_shape c _ _ p hp).2.1
    · rcases pass1_shape c _ _ _ p hp with ⟨ht, _⟩ | ht <;> rw [hk] at ht <;> cases ht
    · split at hp
      · exact (mergePass_shape c.hash _ _ _ _ _ p hp).2.1
      · simp at hp
    · have := pass3_shape c _ _ _ p hp
      rw [hk] at this
      cases this
  · intro p hp hk
    rw [mem_getNextPipes] at hp
    simp only [builtOf, List.mem_append] at hp
    rcases hp with ((hp | hp) | hp) | hp
    · have := (initialPipesOf_shape c _ _ p hp).1
      rw [hk] at this
      cases this
    · rcases pass1_shape c _ _ _ p hp with ⟨_, ht⟩ | ht
      · exact ht
      · rw [hk] at ht
        cases ht
    · split at hp
      · have := (mergePass_shape c.hash _ _ _ _ _ p hp).1
        rw [hk] at this
        cases this
      · simp at hp
    · have := pass3_shape c _ _ _ p hp
      rw [hk] at this
      cases this

lemma mem_pipeSetsAux (st : Commit → Nat) :
    ∀ (cs : List Commit) (pipes row : List Pipe), row ∈ pipeSetsAux st pipes cs →
      ∃ prev c, row = getNextPipes prev c st := by
  intro cs
  induction cs with
  | nil =>
    intro pipes row h
    simp [pipeSetsAux] at h
  | cons c cs ih =>
    intro pipes row h
    simp only [pipeSetsAux] at h
    rcases List.mem_cons.mp h with rfl | h
    · exact ⟨pipes, c, rfl⟩
    · exact ih _ row h

/-- C9: in every row produced by `GetPipeSets` there is at least one STARTS
pipe, all STARTS pipes share one common source lane, and every TERMINATES
pipe's destination lane equals that same lane — the commit-position scan
of `renderPipeSet` is well defined. -/
theorem rows_commit_lane (commits : List Commit) (getStyle : Commit → Nat) (row : List Pipe)
    (hrow : row ∈ GetPipeSets commits getStyle) :
    ∃ lane, (∃ p ∈ row, p.kind = PipeKind.STARTS ∧ p.fromPos = lane) ∧
      (∀ p ∈ row, p.kind = PipeKind.STARTS → p.fromPos = lane) ∧
      (∀ p ∈ row, p.kind = PipeKind.TERMINATES → p.toPos = lane) := by
  unfold GetPipeSets at hrow
  match commits, hrow with
  | c0 :: cs, hrow =>
    obtain ⟨prev, c, rfl⟩ := mem_pipeSetsAux getStyle _ _ _ hrow
    exact getNextPipes_commit_lane prev c getStyle

/-- Witness for C9 at a concrete row of the linear chain. -/
theorem rows_commit_lane_witness :
    ([(⟨0, 0, "START", "c3", PipeKind.TERMINATES, 0⟩ : Pipe),
      ⟨0, 0, "c3", "c2", .STARTS, 0⟩] ∈ GetPipeSets chainCommits noStyle) ∧
    (∃ lane,
      (∃ p ∈ [(⟨0, 0, "START", "c3", PipeKind.TERMINATES, 0⟩ : Pipe),
              ⟨0, 0, "c3", "c2", .STARTS, 0⟩],
          p.kind = PipeKind.STARTS ∧ p.fromPos = lane) ∧
      (∀ p ∈ [(⟨0, 0, "START", "c3", PipeKind.TERMINATES, 0⟩ : Pipe),
              ⟨0, 0, "c3", "c2", .STARTS, 0⟩],
          p.kind = PipeKind.STARTS → p.fromPos = lane) ∧
      (∀ p ∈ [(⟨0, 0, "START", "c3", PipeKind.TERMINATES, 0⟩ : Pipe),
              ⟨0, 0, "c3", "c2", .STARTS, 0⟩],
          p.kind = PipeKind.TERMINATES → p.toPos = lane)) :=
  ⟨by decide, rows_commit_lane chainCommits noStyle _ (by decide)⟩

/-! ### Named pieces of one `getNextPipes` step (proof-side abbreviations) -/

/-- The commit's own lane within one step. -/
def posOfRow (prev : List Pipe) (c : Commit) : Nat :=
  posOf (currentOf prev) c (maxToPos prev)

/-- Result of the first loop within one step. -/
def r1Of (prev : List Pipe) (c : Commit) : List Pipe × Spots :=
  pass1 c (posOfRow prev c) (currentOf prev) ⟨[], []⟩

/-- Result of the merge loop within one step. -/
def r2Of (prev : List Pipe) (c : Commit) (st : Commit → Nat) : List Pipe × Spots :=
  if c.isMerge then
    mergePass c.hash (st c) (posOfRow prev c) (travContOf (currentOf prev) c)
      c.parents.tail (r1Of prev c).2
  else ([], (r1Of prev c).2)

/-- Result of the third loop within one step. -/
def r3Of (prev : List Pipe) (c : Commit) (st : Commit → Nat) : List Pipe × Spots :=
  pass3 c (posOfRow prev c) (currentOf prev) (r2Of prev c st).2

lemma builtOf_eq (prev : List Pipe) (c : Commit) (st : Commit → Nat) :
    builtOf prev c st =
      initialPipesOf c (posOfRow prev c) (st c) ++ (r1Of prev c).1 ++
        (r2Of prev c st).1 ++ (r3Of prev c st).1 := rfl

lemma r1Of_eq (prev : List Pipe) (c : Commit) :
    r1Of prev c = pass1 c (posOfRow prev c) (currentOf prev) ⟨[], []⟩ := rfl

lemma r3Of_eq (prev : List Pipe) (c : Commit) (st : Commit → Nat) :
    r3Of prev c st =
      pass3 c (posOfRow prev c) (currentOf prev) (r2Of prev c st).2 := rfl

/-! ### C2: the STARTS pipes of a merge commit's row -/

lemma pass1_filter_starts (c : Commit) (pos : Nat) (pipes : List Pipe) (s : Spots) :
    (pass1 c pos pipes s).1.filter (fun p => decide (p.kind = PipeKind.STARTS)) = [] := by
  rw [List.filter_eq_nil_iff]
  intro q hq
  rcases pass1_shape c pos pipes s q hq with ⟨h, _⟩ | h <;> simp [h]

lemma pass3_filter_starts (c : Commit) (pos : Nat) (pipes : List Pipe) (s : Spots) :
    (pass3 c pos pipes s).1.filter (fun p => decide (p.kind = PipeKind.STARTS)) = [] := by
  rw [List.filter_eq_nil_iff]
  intro q hq
  simp [pass3_shape c pos pipes s q hq]

lemma mergePass_filter_starts (chash : String) (sty pos : Nat) (travCont : List Nat)
    (parents : List String) (s : Spots) :
    (mergePass chash sty pos travCont parents s).1.filter
        (fun p => decide (p.kind = PipeKind.STARTS)) =
      (mergePass chash sty pos travCont parents s).1 := by
  rw [List.filter_eq_self]
  intro q hq
  simp [(mergePass_shape chash sty pos travCont parents s q hq).1]

lemma initialPipesOf_filter_starts (c : Commit) (pos sty : Nat) :
    (initialPipesOf c pos sty).filter (fun p => decide (p.kind = PipeKind.STARTS)) =
      initialPipesOf c pos sty := by
  rw [List.filter_eq_self]
  intro q hq
  simp [(initialPipesOf_shape c pos sty q hq).1]

lemma initialPipesOf_length (c : Commit) (pos sty : Nat) :
    (initialPipesOf c pos sty).length = 1 := by
  unfold initialPipesOf
  split <;> rfl

lemma initialPipesOf_pairwise (c : Commit) (pos sty : Nat)
    (R : Pipe → Pipe → Prop) : (initialPipesOf c pos sty).Pairwise R := by
  unfold initialPipesOf
  split <;> simp

lemma mergePass_length (chash : String) (sty pos : Nat) (travCont : List Nat) :
    ∀ (parents : List String) (s : Spots),
      (mergePass chash sty pos travCont parents s).1.length = parents.length := by
  intro parents
  induction parents with
  | nil =>
    intro s
    simp [mergePass]
  | cons parent rest ih =>
    intro s
    simp only [mergePass, List.length_cons]
    rw [ih]

lemma mergePass_dests (chash : String) (sty pos : Nat) (travCont : List Nat) :
    ∀ (parents : List String) (s : Spots),
      (∀ q ∈ (mergePass chash sty pos travCont parents s).1,
        q.toPos ∉ s.taken ∧ q.toPos ∉ travCont ∧
          q.toPos ∈ (mergePass chash sty pos travCont parents s).2.taken) ∧
      (mergePass chash sty pos travCont parents s).1.Pairwise
        (fun a b => a.toPos ≠ b.toPos) := by
  intro parents
  induction parents with
  | nil =>
    intro s
    constructor
    · intro q hq
      simp [mergePass] at hq
    · simp [mergePass]
  | cons parent rest ih =>
    intro s
    have hfree := leastNotIn_not_mem (s.taken ++ travCont)
    rw [List.mem_append] at hfree
    push_neg at hfree
    obtain ⟨ihq, ihp⟩ := ih ⟨leastNotIn (s.taken ++ travCont) :: s.taken, s.traversed⟩
    constructor
    · intro q hq
      simp only [mergePass, List.mem_cons] at hq
      rcases hq with rfl | hq
    -- the freshly emitted merge pipe
      · refine ⟨hfree.1, hfree.2, ?_⟩
        simp only [mergePass]
        exact mergePass_taken_mono chash sty pos travCont rest _ _ (by simp)
      · obtain ⟨h1, h2, h3⟩ := ihq q hq
        refine ⟨fun hmem => h1 (by simp [hmem]), h2, ?_⟩
        simpa only [mergePass] using h3
    · simp only [mergePass]
      refine List.Pairwise.cons ?_ ihp
      intro q hq
      have := (ihq q hq).1
      simp only [List.mem_cons, not_or] at this
      intro hEq
      exact this.1 hEq.symm

/-- C2 amended: for a commit with k >= 2 parents the produced row contains
exactly k STARTS pipes and every STARTS pipe is sourced from the commit's
hash; when, additionally, some surviving previous pipe matches the commit
(the commit is not a fresh root of a multi-root log), the destination
lanes of those STARTS pipes are pairwise distinct. -/
theorem merge_starts_exactly (prevPipes : List Pipe) (commit : Commit)
    (getStyle : Commit → Nat) (hk : 2 ≤ commit.parents.length) :
    (((getNextPipes prevPipes commit getStyle).filter
        (fun p => decide (p.kind = PipeKind.STARTS))).length = commit.parents.length ∧
      ∀ p ∈ getNextPipes prevPipes commit getStyle,
        p.kind = PipeKind.STARTS → p.fromHash = commit.hash) ∧
    ((∃ p ∈ currentOf prevPipes, equalHashes p.toHash commit.hash = true) →
      ((getNextPipes prevPipes commit getStyle).filter
          (fun p => decide (p.kind = PipeKind.STARTS))).Pairwise
        (fun a b => a.toPos ≠ b.toPos)) := by
  have hmerge : commit.isMerge = true := by
    simp only [Commit.isMerge, decide_eq_true_eq]
    omega
  have hr2 : r2Of prevPipes commit getStyle =
      mergePass commit.hash (getStyle commit) (posOfRow prevPipes commit)
        (travContOf (currentOf prevPipes) commit) commit.parents.tail
        (r1Of prevPipes commit).2 := by
    unfold r2Of
    rw [hmerge]
    simp
  have hperm : List.Perm
      ((getNextPipes prevPipes commit getStyle).filter
        (fun p => decide (p.kind = PipeKind.STARTS)))
      ((builtOf prevPipes commit getStyle).filter
        (fun p => decide (p.kind = PipeKind.STARTS))) :=
    (List.perm_insertionSort pipeLe _).filter _
  have hfilter : (builtOf prevPipes commit getStyle).filter
        (fun p => decide (p.kind = PipeKind.STARTS)) =
      initialPipesOf commit (posOfRow prevPipes commit) (getStyle commit) ++
        (r2Of prevPipes commit getStyle).1 := by
    rw [builtOf_eq, r3Of_eq, hr2, r1Of_eq]
    rw [List.filter_append, List.filter_append, List.filter_append]
    rw [initialPipesOf_filter_starts, pass1_filter_starts, mergePass_filter_starts,
      pass3_filter_starts]
    simp
  refine ⟨⟨?_, ?_⟩, ?_⟩
  · rw [hperm.length_eq, hfilter, List.length_append, initialPipesOf_length, hr2,
      mergePass_length]
    have : commit.parents.tail.length = commit.parents.length - 1 := by
      simp [List.length_tail]
    omega
  · intro p hp hkind
    rw [mem_getNextPipes, builtOf_eq] at hp
    simp only [List.mem_append] at hp
    rcases hp with ((hp | hp) | hp) | hp
    · exact (initialPipesOf_shape commit _ _ p hp).2.2.2
    · rcases pass1_shape commit _ _ _ p hp with ⟨ht, _⟩ | ht <;> rw [hkind] at ht <;> cases ht
    · rw [hr2] at hp
      exact (mergePass_shape commit.hash _ _ _ _ _ p hp).2.2
    · have := pass3_shape commit _ _ _ p hp
      rw [hkind] at this
      cases this
  · intro hmatched
    rw [hperm.pairwise_iff (fun h => Ne.symm h)]
    rw [hfilter, List.pairwise_append]
    refine ⟨initialPipesOf_pairwise _ _ _ _, ?_, ?_⟩
    · rw [hr2]
      exact (mergePass_dests _ _ _ _ _ _).2
    · intro a ha b hb
      have hpos : posOfRow prevPipes commit ∈ (r1Of prevPipes commit).2.taken := by
        rw [r1Of_eq]
        exact pass1_matched_taken commit _ _ _ hmatched
      have hb2 : b.toPos ∉ (r1Of prevPipes commit).2.taken := by
        rw [hr2] at hb
        exact ((mergePass_dests _ _ _ _ _ _).1 b hb).1
      have ha2 : a.toPos = posOfRow prevPipes commit :=
        (initialPipesOf_shape _ _ _ a ha).2.2.1
      intro hEq
      rw [← hEq, ha2] at hb2
      exact hb2 hpos


/-- Previous row used by the C2 witness: one surviving pipe toward `m`. -/
def witPrev : List Pipe := [⟨0, 0, "z", "m", .STARTS, 0⟩]

/-- Merge commit used by the C2 witness. -/
def witCommit : Commit := ⟨"m", ["p", "q"]⟩

/-- Witness for the amended C2 at a concrete matched merge commit. -/
theorem merge_starts_exactly_witness :
    2 ≤ witCommit.parents.length ∧
    (((getNextPipes witPrev witCommit noStyle).filter
        (fun p => decide (p.kind = PipeKind.STARTS))).length = witCommit.parents.length) ∧
    ((getNextPipes witPrev witCommit noStyle).filter
        (fun p => decide (p.kind = PipeKind.STARTS))).Pairwise
      (fun a b => a.toPos ≠ b.toPos) :=
  ⟨by decide,
   (merge_starts_exactly witPrev witCommit noStyle (by decide)).1.1,
   (merge_starts_exactly witPrev witCommit noStyle (by decide)).2 (by decide)⟩


/-! ### C3 and C4: the chunked parallel rendering -/


lemma chunk_map {α β : Type} (f : Nat → α → β) (dflt : α) (l : List α) (a cnt : Nat)
    (h : a + cnt ≤ l.length) :
    ((l.drop a).take cnt).enum.map (fun pr => f (a + pr.1) pr.2) =
      (List.range' a cnt).map (fun k => f k (l.getD k dflt)) := by
  apply List.ext_getElem
  · simp only [List.length_map, List.enum_length, List.length_take, List.length_drop,
      List.length_range']
    omega
  · intro i h1 h2
    have hlen : i < cnt := by
      simpa using h2
    have hil : a + i < l.length := by omega
    simp only [List.getElem_map, List.getElem_enum, List.getElem_take, List.getElem_drop,
      List.getElem_range', one_mul]
    congr 1
    rw [List.getD_eq_getElem?_getD, List.getElem?_eq_getElem hil, Option.getD_some]

lemma flatten_chunks {β : Type} (g : Nat → β) (per : Nat) :
    ∀ n : Nat, ((List.range n).map (fun i => (List.range' (i * per) per).map g)).flatten =
      (List.range' 0 (n * per)).map g := by
  intro n
  induction n with
  | zero => simp
  | succ n ih =>
    rw [List.range_succ, List.map_append, List.flatten_append, ih]
    simp only [List.map_cons, List.map_nil, List.flatten_cons, List.flatten_nil,
      List.append_nil]
    rw [← List.map_append]
    have hr := List.range'_append_1 0 (n * per) per
    rw [Nat.zero_add] at hr
    rw [hr, Nat.succ_mul, Nat.add_comm per (n * per)]


lemma renderAux_eq_seq (pipeSets : List (List Pipe)) (commits : List Commit)
    (sel : String) (wc : Nat) (hwc : 1 ≤ wc) :
    RenderAux pipeSets commits sel wc = seqRenderSpec pipeSets commits sel := by
  obtain ⟨n, rfl⟩ : ∃ n, wc = n + 1 := ⟨wc - 1, by omega⟩
  simp only [RenderAux, seqRenderSpec]
  obtain ⟨per, hper0⟩ : ∃ p, pipeSets.length / (n + 1) = p := ⟨_, rfl⟩
  rw [hper0]
  have hper : (n + 1) * per ≤ pipeSets.length := by
    rw [← hper0, Nat.mul_comm]
    exact Nat.div_mul_le_self _ _
  have hsm : ∀ j : Nat, (j + 1) * per = j * per + per := fun j => Nat.succ_mul _ _
  rw [List.range_succ, List.map_append, List.flatten_append]
  have hchunk : ∀ i ∈ List.range n,
      (let fromIdx := i * per
       let toIdx := if i = n + 1 - 1 then pipeSets.length else (i + 1) * per
       (((pipeSets.drop fromIdx).take (toIdx - fromIdx)).enum).map (fun pr =>
         renderPipeSet pr.2 sel
           (if 0 < fromIdx + pr.1 then commits.get? (fromIdx + pr.1 - 1) else none))) =
      (List.range' (i * per) per).map
        (fun k => renderPipeSet (pipeSets.getD k []) sel
          (if 0 < k then commits.get? (k - 1) else none)) := by
    intro i hi
    rw [List.mem_range] at hi
    have hne : ¬ (i = n + 1 - 1) := by omega
    simp only [hne, if_false]
    have hbound : (i + 1) * per ≤ (n + 1) * per :=
      Nat.mul_le_mul_right _ (by omega)
    have hcm := chunk_map
      (fun k x => renderPipeSet x sel (if 0 < k then commits.get? (k - 1) else none)) []
      pipeSets (i * per) ((i + 1) * per - i * per)
      (by have := hsm i; omega)
    rw [hcm]
    congr 1
    rw [Nat.succ_mul, Nat.add_sub_cancel_left]
  rw [List.map_congr_left hchunk, flatten_chunks]
  simp only [List.map_cons, List.map_nil, List.flatten_cons, List.flatten_nil,
    List.append_nil]
  rw [if_pos (show n = n + 1 - 1 by omega)]
  have h1 : n * per ≤ (n + 1) * per := Nat.mul_le_mul_right _ (by omega)
  have hcm := chunk_map
    (fun k x => renderPipeSet x sel (if 0 < k then commits.get? (k - 1) else none)) []
    pipeSets (n * per) (pipeSets.length - n * per) (by omega)
  rw [hcm, ← List.map_append]
  have hr := List.range'_append_1 0 (n * per) (pipeSets.length - n * per)
  rw [Nat.zero_add] at hr
  rw [hr]
  have hlen : pipeSets.length - n * per + n * per = pipeSets.length := by omega
  rw [hlen, ← List.range_eq_range']
  exact List.map_congr_left (fun k _ => rfl)


lemma pipeSetsAux_length (st : Commit → Nat) :
    ∀ (cs : List Commit) (pipes : List Pipe), (pipeSetsAux st pipes cs).length = cs.length := by
  intro cs
  induction cs with
  | nil =>
    intro pipes
    rfl
  | cons c cs ih =>
    intro pipes
    simp only [pipeSetsAux, List.length_cons]
    rw [ih]

lemma GetPipeSets_length (commits : List Commit) (st : Commit → Nat) :
    (GetPipeSets commits st).length = commits.length := by
  cases commits with
  | nil => rfl
  | cons c cs => exact pipeSetsAux_length st _ _

/-- C3: for every worker count >= 1, the chunked rendering of `RenderAux`
(floor-division chunks, last chunk absorbing the remainder, chunk outputs
concatenated in order) equals the sequential rendering whose k-th line is
the render of the k-th pipe set with the (k-1)-th commit as previous
commit; hence the output is independent of the worker count and identical
across repeated calls. -/
theorem renderAux_refines (pipeSets : List (List Pipe)) (commits : List Commit)
    (sel : String) (workerCount : Nat) (hwc : 1 ≤ workerCount) :
    RenderAux pipeSets commits sel workerCount = seqRenderSpec pipeSets commits sel ∧
    ∀ wc2 : Nat, 1 ≤ wc2 →
      RenderAux pipeSets commits sel workerCount = RenderAux pipeSets commits sel wc2 := by
  refine ⟨renderAux_eq_seq _ _ _ _ hwc, fun wc2 h2 => ?_⟩
  rw [renderAux_eq_seq _ _ _ _ hwc, renderAux_eq_seq _ _ _ _ h2]

/-- Witness for C3 on the linear chain's pipe sets with two workers. -/
theorem renderAux_refines_witness :
    1 ≤ 2 ∧
    RenderAux (GetPipeSets chainCommits noStyle) chainCommits hashEmpty 2 =
      seqRenderSpec (GetPipeSets chainCommits noStyle) chainCommits hashEmpty :=
  ⟨by decide, (renderAux_refines (GetPipeSets chainCommits noStyle) chainCommits
      hashEmpty 2 (by decide)).1⟩

/-- C4: `RenderCommitGraph` returns exactly one line per input commit, in
the input order: the whole output equals the sequential per-index
rendering of the commits' pipe sets, so the k-th line is the render of
the k-th commit's row (with the (k-1)-th commit as previous commit); the
line count equals the commit count, and an empty commit list yields an
empty result (and, being a total function, no error is ever signalled). -/
theorem renderCommitGraph_line_count (commits : List Commit) (sel : String)
    (getStyle : Commit → Nat) (workerCount : Nat) (hwc : 1 ≤ workerCount) :
    RenderCommitGraph commits sel getStyle workerCount =
      seqRenderSpec (GetPipeSets commits getStyle) commits sel ∧
    (∀ k, k < commits.length →
      (RenderCommitGraph commits sel getStyle workerCount).getD k hashEmpty =
        renderPipeSet ((GetPipeSets commits getStyle).getD k []) sel
          (if 0 < k then commits.get? (k - 1) else none)) ∧
    (RenderCommitGraph commits sel getStyle workerCount).length = commits.length ∧
    (commits = [] → RenderCommitGraph commits sel getStyle workerCount = []) := by
  have hlen := GetPipeSets_length commits getStyle
  have heq : RenderCommitGraph commits sel getStyle workerCount =
      seqRenderSpec (GetPipeSets commits getStyle) commits sel := by
    simp only [RenderCommitGraph]
    split
    · rename_i h
      rw [List.length_eq_zero] at h
      rw [h]
      rfl
    · exact renderAux_eq_seq _ _ _ _ hwc
  refine ⟨heq, ?_, ?_, ?_⟩
  · intro k hk
    rw [heq]
    have hbound : k < (seqRenderSpec (GetPipeSets commits getStyle) commits sel).length := by
      simp only [seqRenderSpec, List.length_map, List.length_range]
      omega
    rw [List.getD_eq_getElem?_getD, List.getElem?_eq_getElem hbound, Option.getD_some]
    simp only [seqRenderSpec, List.getElem_map, List.getElem_range]
    rfl
  · rw [heq]
    simp only [seqRenderSpec, List.length_map, List.length_range]
    exact hlen
  · intro h
    subst h
    rfl

/-- Witness for C4 on the linear chain with two workers, exercising the
per-index clause at line index 1. -/
theorem renderCommitGraph_line_count_witness :
    1 ≤ 2 ∧
    (RenderCommitGraph chainCommits hashEmpty noStyle 2 =
      seqRenderSpec (GetPipeSets chainCommits noStyle) chainCommits hashEmpty) ∧
    ((RenderCommitGraph chainCommits hashEmpty noStyle 2).getD 1 hashEmpty =
      renderPipeSet ((GetPipeSets chainCommits noStyle).getD 1 []) hashEmpty
        (if 0 < 1 then chainCommits.get? 0 else none)) ∧
    (RenderCommitGraph chainCommits hashEmpty noStyle 2).length = chainCommits.length :=
  ⟨by decide,
   (renderCommitGraph_line_count chainCommits hashEmpty noStyle 2 (by decide)).1,
   (renderCommitGraph_line_count chainCommits hashEmpty noStyle 2 (by decide)).2.1 1 (by decide),
   (renderCommitGraph_line_count chainCommits hashEmpty noStyle 2 (by decide)).2.2.1⟩



/-! ### C6: edge preservation for continuing pipes -/


lemma pass1_cont_proj (c : Commit) (pos : Nat) :
    ∀ (pipes : List Pipe) (s : Spots),
      ((pass1 c pos pipes s).1.filter
          (fun q => decide (q.kind = PipeKind.CONTINUES))).map
        (fun q => (q.fromHash, q.toHash)) =
      (pipes.filter
          (fun p => !equalHashes p.toHash c.hash && decide (p.toPos < pos))).map
        (fun p => (p.fromHash, p.toHash)) := by
  intro pipes
  induction pipes with
  | nil =>
    intro s
    simp [pass1]
  | cons pipe rest ih =>
    intro s
    simp only [pass1]
    by_cases hm : equalHashes pipe.toHash c.hash = true
    · rw [if_pos hm]
      simp only [List.filter_cons]
      rw [if_neg (by simp), if_neg (by simp [hm])]
      exact ih _
    · rw [if_neg hm]
      have hm2 : equalHashes pipe.toHash c.hash = false := by
        revert hm
        cases equalHashes pipe.toHash c.hash <;> simp
      by_cases hlt : pipe.toPos < pos
      · rw [if_pos hlt]
        simp only [List.filter_cons]
        rw [if_pos (by simp), if_pos (by simp [hm2, hlt])]
        simp only [List.map_cons]
        rw [ih _]
      · rw [if_neg hlt]
        simp only [List.filter_cons]
        rw [if_neg (by simp [hm2, hlt])]
        exact ih _

lemma pass3_cont_proj (c : Commit) (pos : Nat) :
    ∀ (pipes : List Pipe) (s : Spots),
      ((pass3 c pos pipes s).1.filter
          (fun q => decide (q.kind = PipeKind.CONTINUES))).map
        (fun q => (q.fromHash, q.toHash)) =
      (pipes.filter
          (fun p => !equalHashes p.toHash c.hash && decide (pos < p.toPos))).map
        (fun p => (p.fromHash, p.toHash)) := by
  intro pipes
  induction pipes with
  | nil =>
    intro s
    simp [pass3]
  | cons pipe rest ih =>
    intro s
    simp only [pass3]
    by_cases hm : equalHashes pipe.toHash c.hash = true
    · rw [if_pos hm]
      simp only [List.filter_cons]
      rw [if_neg (by simp [hm])]
      exact ih _
    · rw [if_neg hm]
      have hm2 : equalHashes pipe.toHash c.hash = false := by
        revert hm
        cases equalHashes pipe.toHash c.hash <;> simp
      by_cases hgt : pos < pipe.toPos
      · rw [if_pos hgt]
        simp only [List.filter_cons]
        rw [if_pos (by simp), if_pos (by simp [hm2, hgt])]
        simp only [List.map_cons]
        rw [ih _]
      · rw [if_neg hgt]
        simp only [List.filter_cons]
        rw [if_neg (by simp [hm2, hgt])]
        exact ih _


lemma filter_split_perm {α : Type} (pm lt gt : α → Bool) :
    ∀ (l : List α), (∀ x ∈ l, pm x = true → (lt x = true ↔ gt x = false)) →
    List.Perm (l.filter (fun x => pm x && lt x) ++ l.filter (fun x => pm x && gt x))
      (l.filter pm) := by
  intro l
  induction l with
  | nil =>
    intro h
    simp
  | cons x rest ih =>
    intro h
    have ih2 := ih (fun y hy => h y (List.mem_cons_of_mem x hy))
    by_cases hpm : pm x = true
    · have hiff := h x (List.mem_cons_self x rest) hpm
      by_cases hlt : lt x = true
      · have hgt : gt x = false := hiff.mp hlt
        simp only [List.filter_cons, hpm, hlt, hgt, Bool.and_self, Bool.and_false,
          Bool.and_true, if_true, if_false]
        exact ih2.cons x
      · have hgt : gt x = true := by
          cases hg : gt x
          · exact absurd (hiff.mpr hg) hlt
          · rfl
        have hlt2 : lt x = false := by
          revert hlt
          cases lt x <;> simp
        simp only [List.filter_cons, hpm, hlt2, hgt, Bool.and_false, Bool.and_true,
          if_false, if_true]
        exact List.Perm.trans List.perm_middle (ih2.cons x)
    · have hpm2 : pm x = false := by
        revert hpm
        cases pm x <;> simp
      simp only [List.filter_cons, hpm2, Bool.false_and, if_false]
      exact ih2

lemma r2Of_no_conts (prev : List Pipe) (c : Commit) (st : Commit → Nat) :
    (r2Of prev c st).1.filter (fun q => decide (q.kind = PipeKind.CONTINUES)) = [] := by
  rw [List.filter_eq_nil_iff]
  intro q hq
  unfold r2Of at hq
  split at hq
  · simp [(mergePass_shape _ _ _ _ _ _ q hq).1]
  · simp at hq

lemma initialPipesOf_no_conts (c : Commit) (pos sty : Nat) :
    (initialPipesOf c pos sty).filter (fun q => decide (q.kind = PipeKind.CONTINUES)) = [] := by
  rw [List.filter_eq_nil_iff]
  intro q hq
  simp [(initialPipesOf_shape c pos sty q hq).1]

/-- C6 amended: when no two non-terminating pipes of the previous row share
a destination lane, the multiset of (source hash, destination hash) pairs
of the CONTINUES pipes in the produced row equals the multiset of those
pairs over all surviving previous pipes that do not match the commit — no
edge is dropped and none is duplicated. -/
theorem continues_preserved (prevPipes : List Pipe) (commit : Commit)
    (getStyle : Commit → Nat) (hd : NonTermDistinct prevPipes) :
    List.Perm
      (((getNextPipes prevPipes commit getStyle).filter
          (fun q => decide (q.kind = PipeKind.CONTINUES))).map
        (fun q => (q.fromHash, q.toHash)))
      (((currentOf prevPipes).filter
          (fun p => !equalHashes p.toHash commit.hash)).map
        (fun p => (p.fromHash, p.toHash))) := by
  have hne : ∀ x ∈ currentOf prevPipes, equalHashes x.toHash commit.hash = false →
      x.toPos ≠ posOfRow prevPipes commit := by
    intro x hx hm
    unfold posOfRow posOf
    cases hfind : (currentOf prevPipes).find? (fun p => equalHashes p.toHash commit.hash) with
    | none =>
      show x.toPos ≠ maxToPos prevPipes + 1
      have hle := le_maxToPos prevPipes x (List.mem_of_mem_filter hx)
      omega
    | some p0 =>
      show x.toPos ≠ p0.toPos
      have hp0mem := List.mem_of_find?_eq_some hfind
      have hp0match := List.find?_some hfind
      have hxne : x ≠ p0 := by
        intro hEq
        rw [hEq, hp0match] at hm
        cases hm
      exact hd.forall (fun {a b} hab => Ne.symm hab) hx hp0mem hxne
  have hiff : ∀ x ∈ currentOf prevPipes, (!equalHashes x.toHash commit.hash) = true →
      ((decide (x.toPos < posOfRow prevPipes commit)) = true ↔
        (decide (posOfRow prevPipes commit < x.toPos)) = false) := by
    intro x hx hm
    have hm2 : equalHashes x.toHash commit.hash = false := by
      revert hm
      cases equalHashes x.toHash commit.hash <;> simp
    have hx2 := hne x hx hm2
    simp only [decide_eq_true_eq, decide_eq_false_iff_not, not_lt]
    omega
  have hsplit := filter_split_perm (fun p => !equalHashes p.toHash commit.hash)
      (fun p => decide (p.toPos < posOfRow prevPipes commit))
      (fun p => decide (posOfRow prevPipes commit < p.toPos))
      (currentOf prevPipes) hiff
  have h1 : ((builtOf prevPipes commit getStyle).filter
        (fun q => decide (q.kind = PipeKind.CONTINUES))).map (fun q => (q.fromHash, q.toHash)) =
      ((currentOf prevPipes).filter (fun p => !equalHashes p.toHash commit.hash &&
          decide (p.toPos < posOfRow prevPipes commit))).map (fun p => (p.fromHash, p.toHash)) ++
      ((currentOf prevPipes).filter (fun p => !equalHashes p.toHash commit.hash &&
          decide (posOfRow prevPipes commit < p.toPos))).map (fun p => (p.fromHash, p.toHash)) := by
    rw [builtOf_eq, r3Of_eq, r1Of_eq]
    rw [List.filter_append, List.filter_append, List.filter_append]
    rw [initialPipesOf_no_conts, r2Of_no_conts]
    simp only [List.nil_append, List.append_nil, List.map_append]
    rw [pass1_cont_proj, pass3_cont_proj]
  have hsort : List.Perm
      (((getNextPipes prevPipes commit getStyle).filter
          (fun q => decide (q.kind = PipeKind.CONTINUES))).map (fun q => (q.fromHash, q.toHash)))
      (((builtOf prevPipes commit getStyle).filter
          (fun q => decide (q.kind = PipeKind.CONTINUES))).map (fun q => (q.fromHash, q.toHash))) :=
    ((List.perm_insertionSort pipeLe _).filter _).map _
  rw [h1] at hsort
  refine hsort.trans ?_
  rw [← List.map_append]
  exact hsplit.map _


/-- Witness for the amended C6 at a concrete previous row. -/
theorem continues_preserved_witness :
    NonTermDistinct witPrev ∧
    List.Perm
      (((getNextPipes witPrev witCommit noStyle).filter
          (fun q => decide (q.kind = PipeKind.CONTINUES))).map
        (fun q => (q.fromHash, q.toHash)))
      (((currentOf witPrev).filter
          (fun p => !equalHashes p.toHash witCommit.hash)).map
        (fun p => (p.fromHash, p.toHash))) :=
  ⟨by decide, continues_preserved witPrev witCommit noStyle (by decide)⟩


/-! ### C1: lane distinctness of the non-terminating pipes -/


lemma slideLeftGo_le (s : Spots) :
    ∀ (fuel i last : Nat), slideLeftGo s i last fuel ≤ max last i := by
  intro fuel
  induction fuel with
  | zero =>
    intro i last
    simp only [slideLeftGo]
    omega
  | succ n ih =>
    intro i last
    simp only [slideLeftGo]
    split
    · omega
    · have := ih (i - 1) i
      omega

lemma slideLeftGo_gt_base (s : Spots) :
    ∀ (fuel i last p : Nat), i = p + fuel → p < last → p < slideLeftGo s i last fuel := by
  intro fuel
  induction fuel with
  | zero =>
    intro i last p h1 h2
    simpa [slideLeftGo] using h2
  | succ n ih =>
    intro i last p h1 h2
    simp only [slideLeftGo]
    split
    · exact h2
    · exact ih (i - 1) i p (by omega) (by omega)

lemma slideLeftGo_gt_blocked (s : Spots) :
    ∀ (fuel i last x : Nat), (x ∈ s.taken ∨ x ∈ s.traversed) →
      i - fuel < x → x ≤ i → x < last → x < slideLeftGo s i last fuel := by
  intro fuel
  induction fuel with
  | zero =>
    intro i last x hx h1 h2 h3
    omega
  | succ n ih =>
    intro i last x hx h1 h2 h3
    simp only [slideLeftGo]
    split
    · exact h3
    · rename_i hfree
      have hne : x ≠ i := by
        intro hEq
        exact hfree (hEq ▸ hx)
      exact ih (i - 1) i x hx (by omega) (by omega) (by omega)

lemma slideLeftGo_free (s : Spots) :
    ∀ (fuel i last : Nat), slideLeftGo s i last fuel = last ∨
      (slideLeftGo s i last fuel ∉ s.taken ∧ slideLeftGo s i last fuel ∉ s.traversed) := by
  intro fuel
  induction fuel with
  | zero =>
    intro i last
    left
    rfl
  | succ n ih =>
    intro i last
    simp only [slideLeftGo]
    split
    · left
      rfl
    · rename_i hfree
      push_neg at hfree
      rcases ih (i - 1) i with h | h
      · right
        rw [h]
        exact hfree
      · right
        exact h

lemma slideLeft_le (s : Spots) (t pos : Nat) : slideLeft s t pos ≤ t := by
  have := slideLeftGo_le s (t - pos) t t
  unfold slideLeft
  omega

lemma slideLeft_gt_pos (s : Spots) (t pos : Nat) (h : pos < t) : pos < slideLeft s t pos :=
  slideLeftGo_gt_base s (t - pos) t t pos (by omega) h

lemma slideLeft_gt_blocked (s : Spots) (t pos x : Nat)
    (hx : x ∈ s.taken ∨ x ∈ s.traversed) (h1 : pos < x) (h2 : x < t) :
    x < slideLeft s t pos :=
  slideLeftGo_gt_blocked s (t - pos) t t x hx (by omega) (by omega) h2

lemma slideLeft_free (s : Spots) (t pos : Nat) :
    slideLeft s t pos = t ∨ (slideLeft s t pos ∉ s.taken ∧ slideLeft s t pos ∉ s.traversed) :=
  slideLeftGo_free s (t - pos) t t


lemma pass3_main (c : Commit) (pos : Nat) :
    ∀ (pipes : List Pipe) (s : Spots),
      pipes.Pairwise (fun a b => a.toPos < b.toPos) →
      (∀ q ∈ (pass3 c pos pipes s).1,
          pos < q.toPos ∧ q.toPos ≤ q.fromPos ∧
          (∃ p ∈ pipes, p.toPos = q.fromPos ∧ equalHashes p.toHash c.hash = false) ∧
          (q.toPos ∉ s.taken ∨ q.toPos = q.fromPos) ∧
          (∀ x, (x ∈ s.taken ∨ x ∈ s.traversed) → pos < x → x < q.fromPos → x < q.toPos)) ∧
      (pass3 c pos pipes s).1.Pairwise (fun a b => a.toPos < b.toPos) := by
  intro pipes
  induction pipes with
  | nil =>
    intro s hpw
    constructor
    · intro q hq
      simp [pass3] at hq
    · simp [pass3]
  | cons pipe rest ih =>
    intro s hpw
    have hhead := List.pairwise_cons.mp hpw
    obtain ⟨hheadlt, htail⟩ := hhead
    by_cases hm : equalHashes pipe.toHash c.hash = true
    · simp only [pass3, if_pos hm]
      obtain ⟨ihq, ihp⟩ := ih s htail
      refine ⟨fun q hq => ?_, ihp⟩
      obtain ⟨h1, h2, ⟨p, hp, hp2, hp3⟩, h4, h5⟩ := ihq q hq
      exact ⟨h1, h2, ⟨p, List.mem_cons_of_mem _ hp, hp2, hp3⟩, h4, h5⟩
    · have hm2 : equalHashes pipe.toHash c.hash = false := by
        revert hm
        cases equalHashes pipe.toHash c.hash <;> simp
      have hmne : ¬(equalHashes pipe.toHash c.hash = true) := by simp [hm2]
      by_cases hgt : pos < pipe.toPos
      · simp only [pass3, if_neg hmne, if_pos hgt]
        obtain ⟨ihq, ihp⟩ := ih (s.traverse pipe.toPos (slideLeft s pipe.toPos pos)) htail
        have hd_le : slideLeft s pipe.toPos pos ≤ pipe.toPos := slideLeft_le s _ _
        have ht_trav : pipe.toPos ∈
            (s.traverse pipe.toPos (slideLeft s pipe.toPos pos)).traversed := by
          simp only [Spots.traverse, List.mem_append]
          left
          rw [mem_spanList]
          omega
        constructor
        · intro q hq
          rcases List.mem_cons.mp hq with rfl | hq
          · refine ⟨slideLeft_gt_pos s _ _ hgt, hd_le, ⟨pipe, List.mem_cons_self _ _, rfl, hm2⟩,
              ?_, ?_⟩
            · rcases slideLeft_free s pipe.toPos pos with h | h
              · exact Or.inr h
              · exact Or.inl h.1
            · intro x hx h1 h2
              exact slideLeft_gt_blocked s _ _ x hx h1 h2
          · obtain ⟨h1, h2, ⟨p, hp, hp2, hp3⟩, h4, h5⟩ := ihq q hq
            refine ⟨h1, h2, ⟨p, List.mem_cons_of_mem _ hp, hp2, hp3⟩, ?_, ?_⟩
            · rcases h4 with h4 | h4
              · left
                intro hmem
                exact h4 (by simp [Spots.traverse, hmem])
              · exact Or.inr h4
            · intro x hx hx1 hx2
              refine h5 x ?_ hx1 hx2
              rcases hx with hx | hx
              · exact Or.inl (by simp [Spots.traverse, hx])
              · exact Or.inr (by simp [Spots.traverse, hx])
        · refine List.Pairwise.cons ?_ ihp
          intro q hq
          obtain ⟨h1, h2, ⟨p, hp, hp2, hp3⟩, h4, h5⟩ := ihq q hq
          have hx := h5 pipe.toPos (Or.inr ht_trav) hgt (by rw [← hp2]; exact hheadlt p hp)
          show slideLeft s pipe.toPos pos < q.toPos
          omega
      · simp only [pass3, if_neg hmne, if_neg hgt]
        obtain ⟨ihq, ihp⟩ := ih s htail
        refine ⟨fun q hq => ?_, ihp⟩
        obtain ⟨h1, h2, ⟨p, hp, hp2, hp3⟩, h4, h5⟩ := ihq q hq
        exact ⟨h1, h2, ⟨p, List.mem_cons_of_mem _ hp, hp2, hp3⟩, h4, h5⟩


lemma pass1_low (c : Commit) (pos : Nat) :
    ∀ (pipes : List Pipe) (s : Spots) (m : Nat),
      (∀ p ∈ pipes, equalHashes p.toHash c.hash = false) →
      (∀ p ∈ pipes, p.toPos < pos) →
      pipes.Pairwise (fun a b => a.toPos < b.toPos) →
      (∀ i, i ∈ s.traversed ↔ i < m) →
      (∀ i ∈ s.taken, i < m) →
      (∀ p ∈ pipes, m ≤ p.toPos) →
      m ≤ pos →
      ∃ m2, m ≤ m2 ∧ m2 ≤ pos ∧
        (∀ i, i ∈ (pass1 c pos pipes s).2.traversed ↔ i < m2) ∧
        (∀ i ∈ (pass1 c pos pipes s).2.taken, i < m2) ∧
        (∀ q ∈ (pass1 c pos pipes s).1,
            q.kind = PipeKind.CONTINUES ∧ m ≤ q.toPos ∧ q.toPos < pos ∧
            q.toPos ∈ (pass1 c pos pipes s).2.taken) ∧
        (pass1 c pos pipes s).1.Pairwise (fun a b => a.toPos < b.toPos) := by
  intro pipes
  induction pipes with
  | nil =>
    intro s m hnm hlt hpw htrav htaken hmle hmpos
    refine ⟨m, Nat.le_refl m, hmpos, ?_, ?_, ?_, ?_⟩
    · simpa [pass1] using htrav
    · simpa [pass1] using htaken
    · intro q hq
      simp [pass1] at hq
    · simp [pass1]
  | cons pipe rest ih =>
    intro s m hnm hlt hpw htrav htaken hmle hmpos
    have hm2 : equalHashes pipe.toHash c.hash = false :=
      hnm pipe (List.mem_cons_self _ _)
    have hmne : ¬(equalHashes pipe.toHash c.hash = true) := by simp [hm2]
    have hplt : pipe.toPos < pos := hlt pipe (List.mem_cons_self _ _)
    have hpm : m ≤ pipe.toPos := hmle pipe (List.mem_cons_self _ _)
    obtain ⟨hheadlt, htail⟩ := List.pairwise_cons.mp hpw
    simp only [pass1, if_neg hmne, if_pos hplt]
    have havail : leastNotIn s.traversed = m := by
      refine leastNotIn_eq _ m ?_ (fun j hj => (htrav j).mpr hj)
      intro hmem
      have := (htrav m).mp hmem
      omega
    rw [havail]
    have htrav2 : ∀ i, i ∈ (s.traverse pipe.toPos m).traversed ↔ i < pipe.toPos + 1 := by
      intro i
      simp only [Spots.traverse, List.mem_append, mem_spanList, htrav]
      omega
    have htaken2 : ∀ i ∈ (s.traverse pipe.toPos m).taken, i < pipe.toPos + 1 := by
      intro i hi
      simp only [Spots.traverse, List.mem_cons] at hi
      rcases hi with rfl | hi
      · omega
      · have := htaken i hi
        omega
    obtain ⟨m2, hm2a, hm2b, hm2trav, hm2taken, hm2emit, hm2pw⟩ :=
      ih (s.traverse pipe.toPos m) (pipe.toPos + 1)
        (fun p hp => hnm p (List.mem_cons_of_mem _ hp))
        (fun p hp => hlt p (List.mem_cons_of_mem _ hp))
        htail htrav2 htaken2
        (fun p hp => hheadlt p hp)
        hplt
    refine ⟨m2, by omega, hm2b, hm2trav, hm2taken, ?_, ?_⟩
    · intro q hq
      rcases List.mem_cons.mp hq with rfl | hq
      · refine ⟨rfl, ?_, ?_, ?_⟩
        · exact Nat.le_refl m
        · exact Nat.lt_of_le_of_lt hpm hplt
        · exact pass1_taken_mono c pos rest _ m (by simp [Spots.traverse])
      · obtain ⟨hk, hge, hlt2, htk⟩ := hm2emit q hq
        exact ⟨hk, by omega, hlt2, htk⟩
    · refine List.Pairwise.cons ?_ hm2pw
      intro q hq
      obtain ⟨hk, hge, hlt2, htk⟩ := hm2emit q hq
      show m < q.toPos
      omega

lemma pass1_high (c : Commit) (pos : Nat) :
    ∀ (pipes : List Pipe) (s : Spots),
      (∀ p ∈ pipes, pos ≤ p.toPos) →
      (∀ q ∈ (pass1 c pos pipes s).1, q.kind = PipeKind.TERMINATES) ∧
      (∀ i ∈ (pass1 c pos pipes s).2.taken, i ∈ s.taken ∨ i = pos) := by
  intro pipes
  induction pipes with
  | nil =>
    intro s hge
    constructor
    · intro q hq
      simp [pass1] at hq
    · intro i hi
      simp only [pass1] at hi
      exact Or.inl hi
  | cons pipe rest ih =>
    intro s hge
    have hple : pos ≤ pipe.toPos := hge pipe (List.mem_cons_self _ _)
    have htail : ∀ p ∈ rest, pos ≤ p.toPos := fun p hp => hge p (List.mem_cons_of_mem _ hp)
    by_cases hm : equalHashes pipe.toHash c.hash = true
    · simp only [pass1, if_pos hm]
      obtain ⟨ih1, ih2⟩ := ih (s.traverse pipe.toPos pos) htail
      constructor
      · intro q hq
        rcases List.mem_cons.mp hq with rfl | hq
        · rfl
        · exact ih1 q hq
      · intro i hi
        rcases ih2 i hi with hi2 | hi2
        · simp only [Spots.traverse, List.mem_cons] at hi2
          rcases hi2 with rfl | hi2
          · exact Or.inr rfl
          · exact Or.inl hi2
        · exact Or.inr hi2
    · have hmne : ¬(equalHashes pipe.toHash c.hash = true) := hm
      have hnlt : ¬(pipe.toPos < pos) := by omega
      simp only [pass1, if_neg hmne, if_neg hnlt]
      exact ih s htail

lemma pass1_append (c : Commit) (pos : Nat) :
    ∀ (A B : List Pipe) (s : Spots),
      pass1 c pos (A ++ B) s =
        ((pass1 c pos A s).1 ++ (pass1 c pos B (pass1 c pos A s).2).1,
         (pass1 c pos B (pass1 c pos A s).2).2) := by
  intro A
  induction A with
  | nil =>
    intro B s
    simp [pass1]
  | cons pipe rest ih =>
    intro B s
    simp only [List.cons_append, pass1, List.append_eq]
    split
    · rw [ih]
      rfl
    · split
      · rw [ih]
        rfl
      · rw [ih]

lemma pipeLe_toPos_le (a b : Pipe) (h : pipeLe a b) : a.toPos ≤ b.toPos := by
  unfold pipeLe at h
  omega

lemma find?_sorted_min (pred : Pipe → Bool) :
    ∀ (cur : List Pipe) (p0 : Pipe), cur.Pairwise pipeLe → cur.find? pred = some p0 →
      ∀ p ∈ cur, pred p = true → p0.toPos ≤ p.toPos := by
  intro cur
  induction cur with
  | nil =>
    intro p0 hsort hfind
    simp at hfind
  | cons x xs ih =>
    intro p0 hsort hfind p hp hpred
    obtain ⟨hhead, htail⟩ := List.pairwise_cons.mp hsort
    by_cases hx : pred x = true
    · rw [List.find?_cons_of_pos _ hx] at hfind
      injection hfind with hfind
      subst hfind
      rcases List.mem_cons.mp hp with rfl | hp
      · exact Nat.le_refl _
      · exact pipeLe_toPos_le _ _ (hhead p hp)
    · rw [List.find?_cons_of_neg _ hx] at hfind
      rcases List.mem_cons.mp hp with rfl | hp
      · exact absurd hpred hx
      · exact ih p0 htail hfind p hp hpred

lemma dropWhile_head_fails {α : Type} (p : α → Bool) :
    ∀ (l : List α) (b : α) (bs : List α), l.dropWhile p = b :: bs → p b = false := by
  intro l
  induction l with
  | nil =>
    intro b bs h
    simp [List.dropWhile] at h
  | cons x xs ih =>
    intro b bs h
    rw [List.dropWhile_cons] at h
    split at h
    · exact ih b bs h
    · rename_i hpx
      injection h with h1 h2
      rw [← h1]
      revert hpx
      cases p x <;> simp


lemma initialPipesOf_filter_nonterm (c : Commit) (pos sty : Nat) :
    (initialPipesOf c pos sty).filter (fun p => decide (p.kind ≠ PipeKind.TERMINATES)) =
      initialPipesOf c pos sty := by
  rw [List.filter_eq_self]
  intro q hq
  simp [(initialPipesOf_shape c pos sty q hq).1]

lemma mem_travContOf (cur : List Pipe) (c : Commit) (p : Pipe) (hp : p ∈ cur)
    (hm : equalHashes p.toHash c.hash = false) : p.toPos ∈ travContOf cur c := by
  unfold travContOf
  exact List.mem_map_of_mem _ (List.mem_filter.mpr ⟨hp, by simp [hm]⟩)

lemma bool_eq_false_of_not_true {b : Bool} (h : ¬(b = true)) : b = false := by
  revert h
  cases b <;> simp

/-- The single-step preservation behind the amended C1: from a sorted
previous row whose non-terminating pipes occupy distinct lanes, and a
commit that is either a non-merge or is matched by a surviving pipe, the
produced row again has pairwise distinct destination lanes among its
non-terminating pipes. -/
theorem step_nonterm_distinct (prev : List Pipe) (c : Commit) (st : Commit → Nat)
    (hs : List.Sorted pipeLe prev) (hd : NonTermDistinct prev)
    (hok : c.parents.length ≤ 1 ∨
      ∃ p ∈ currentOf prev, equalHashes p.toHash c.hash = true) :
    NonTermDistinct (getNextPipes prev c st) := by
  have hcur_sorted : (currentOf prev).Pairwise pipeLe :=
    List.Pairwise.sublist (List.filter_sublist prev) hs
  have hcur_strict : (currentOf prev).Pairwise (fun a b => a.toPos < b.toPos) := by
    refine (hcur_sorted.and hd).imp ?_
    intro a b hab
    have h1 := pipeLe_toPos_le a b hab.1
    have h2 := hab.2
    omega
  unfold NonTermDistinct
  have hperm : List.Perm (currentOf (getNextPipes prev c st)) (currentOf (builtOf prev c st)) := by
    unfold currentOf
    exact (List.perm_insertionSort pipeLe _).filter _
  rw [hperm.pairwise_iff (fun {a b} h => Ne.symm h)]
  cases hfind : (currentOf prev).find? (fun p => equalHashes p.toHash c.hash) with
  | none =>
    have hpos : posOfRow prev c = maxToPos prev + 1 := by
      unfold posOfRow posOf
      rw [hfind]
    have hnomatch := List.find?_eq_none.mp hfind
    have hnm : ∀ p ∈ currentOf prev, equalHashes p.toHash c.hash = false :=
      fun p hp => bool_eq_false_of_not_true (hnomatch p hp)
    have hall_lt : ∀ p ∈ currentOf prev, p.toPos < posOfRow prev c := by
      intro p hp
      rw [hpos]
      have := le_maxToPos prev p (List.mem_of_mem_filter hp)
      omega
    have hple : c.parents.length ≤ 1 := by
      rcases hok with h | ⟨p, hp, hm⟩
      · exact h
      · exact absurd hm (hnomatch p hp)
    have hmergef : ¬(c.isMerge = true) := by
      simp only [Commit.isMerge, decide_eq_true_eq]
      omega
    have hr2f : (r2Of prev c st).1 = [] := by
      unfold r2Of
      rw [if_neg hmergef]
    obtain ⟨m2, _, hm2pos, hm2trav, hm2taken, hAemit, hApw⟩ :=
      pass1_low c (posOfRow prev c) (currentOf prev) ⟨[], []⟩ 0 hnm hall_lt hcur_strict
        (by
          intro i
          constructor
          · intro h
            simp at h
          · intro h
            omega)
        (by intro i hi; simp at hi) (fun p hp => Nat.zero_le _) (Nat.zero_le _)
    obtain ⟨h3q, h3pw⟩ := pass3_main c (posOfRow prev c) (currentOf prev)
      (r2Of prev c st).2 hcur_strict
    have h3nil : (r3Of prev c st).1 = [] := by
      rw [List.eq_nil_iff_forall_not_mem]
      intro q hq
      rw [r3Of_eq] at hq
      obtain ⟨h1, h2, ⟨p, hp, hp2, hp3⟩, h4, h5⟩ := h3q q hq
      have := hall_lt p hp
      omega
    rw [builtOf_eq]
    unfold currentOf
    rw [List.filter_append, List.filter_append, List.filter_append]
    rw [initialPipesOf_filter_nonterm, hr2f, h3nil, r1Of_eq]
    have hr1f : (pass1 c (posOfRow prev c) (currentOf prev) ⟨[], []⟩).1.filter
        (fun p => decide (p.kind ≠ PipeKind.TERMINATES)) =
        (pass1 c (posOfRow prev c) (currentOf prev) ⟨[], []⟩).1 := by
      rw [List.filter_eq_self]
      intro q hq
      simp [(hAemit q hq).1]
    rw [hr1f]
    simp only [List.filter_nil, List.append_nil]
    rw [List.pairwise_append]
    refine ⟨initialPipesOf_pairwise _ _ _ _, ?_, ?_⟩
    · refine hApw.imp ?_
      intro a b hab
      omega
    · intro a ha b hb
      have ha2 : a.toPos = posOfRow prev c := (initialPipesOf_shape _ _ _ a ha).2.2.1
      have hb2 := (hAemit b hb).2.2.1
      omega
  | some p0 =>
    have hp0mem : p0 ∈ currentOf prev := List.mem_of_find?_eq_some hfind
    have hp0match : equalHashes p0.toHash c.hash = true := by
      have := List.find?_some hfind
      simpa using this
    have hpos : posOfRow prev c = p0.toPos := by
      unfold posOfRow posOf
      rw [hfind]
    obtain ⟨A, B, hAB, hA_lt, hB_ge, hA_nm⟩ :
        ∃ A B, A ++ B = currentOf prev ∧ (∀ p ∈ A, p.toPos < posOfRow prev c) ∧
          (∀ p ∈ B, posOfRow prev c ≤ p.toPos) ∧
          (∀ p ∈ A, equalHashes p.toHash c.hash = false) := by
      refine ⟨(currentOf prev).takeWhile (fun p => decide (p.toPos < posOfRow prev c)),
        (currentOf prev).dropWhile (fun p => decide (p.toPos < posOfRow prev c)),
        List.takeWhile_append_dropWhile _ _, ?_, ?_, ?_⟩
      · intro p hp
        have := List.mem_takeWhile_imp hp
        simpa using this
      · intro p hp
        rcases hBeq : (currentOf prev).dropWhile
            (fun p => decide (p.toPos < posOfRow prev c)) with _ | ⟨b, bs⟩
        · rw [hBeq] at hp
          simp at hp
        · rw [hBeq] at hp
          have hbf := dropWhile_head_fails _ _ b bs hBeq
          have hb_ge : posOfRow prev c ≤ b.toPos := by
            simp only [decide_eq_false_iff_not, not_lt] at hbf
            exact hbf
          have hBsorted : (b :: bs).Pairwise pipeLe := by
            rw [← hBeq]
            exact List.Pairwise.sublist (List.dropWhile_sublist _) hcur_sorted
          rcases List.mem_cons.mp hp with rfl | hp
          · exact hb_ge
          · have := pipeLe_toPos_le b p ((List.pairwise_cons.mp hBsorted).1 p hp)
            omega
      · intro p hp
        have hlt := List.mem_takeWhile_imp hp
        have hp_cur : p ∈ currentOf prev := (List.takeWhile_sublist _).subset hp
        refine bool_eq_false_of_not_true ?_
        intro hmatch
        have hmin := find?_sorted_min _ (currentOf prev) p0 hcur_sorted hfind p hp_cur hmatch
        simp only [decide_eq_true_eq] at hlt
        omega
    have hp0B : p0 ∈ B := by
      have hmem : p0 ∈ A ++ B := by
        rw [hAB]
        exact hp0mem
      rcases List.mem_append.mp hmem with h | h
      · rw [hA_nm p0 h] at hp0match
        cases hp0match
      · exact h
    have hApw_strict : A.Pairwise (fun a b => a.toPos < b.toPos) := by
      refine List.Pairwise.sublist ?_ hcur_strict
      rw [← hAB]
      exact List.sublist_append_left A B
    have hr1a : (r1Of prev c).1 = (pass1 c (posOfRow prev c) A ⟨[], []⟩).1 ++
        (pass1 c (posOfRow prev c) B (pass1 c (posOfRow prev c) A ⟨[], []⟩).2).1 := by
      rw [r1Of_eq, ← hAB, pass1_append]
    have hr1b : (r1Of prev c).2 =
        (pass1 c (posOfRow prev c) B (pass1 c (posOfRow prev c) A ⟨[], []⟩).2).2 := by
      rw [r1Of_eq, ← hAB, pass1_append]
    obtain ⟨m2, _, hm2pos, hm2trav, hm2taken, hAemit, hApw⟩ :=
      pass1_low c (posOfRow prev c) A ⟨[], []⟩ 0 hA_nm hA_lt hApw_strict
        (by
          intro i
          constructor
          · intro h
            simp at h
          · intro h
            omega)
        (by intro i hi; simp at hi) (fun p hp => Nat.zero_le _) (Nat.zero_le _)
    obtain ⟨hBterm, hBtaken⟩ :=
      pass1_high c (posOfRow prev c) B (pass1 c (posOfRow prev c) A ⟨[], []⟩).2 hB_ge
    have hpos_taken : posOfRow prev c ∈ (r1Of prev c).2.taken := by
      rw [hr1b]
      exact pass1_matched_taken c _ B _ ⟨p0, hp0B, hp0match⟩
    have hsA_mono : ∀ i ∈ (pass1 c (posOfRow prev c) A ⟨[], []⟩).2.taken,
        i ∈ (r1Of prev c).2.taken := by
      intro i hi
      rw [hr1b]
      exact pass1_taken_mono c _ B _ i hi
    have hl2 : (∀ q ∈ (r2Of prev c st).1,
          q.kind = PipeKind.STARTS ∧
          q.toPos ∉ (r1Of prev c).2.taken ∧
          q.toPos ∉ travContOf (currentOf prev) c ∧
          q.toPos ∈ (r2Of prev c st).2.taken) ∧
        (r2Of prev c st).1.Pairwise (fun a b => a.toPos ≠ b.toPos) ∧
        (∀ i ∈ (r1Of prev c).2.taken, i ∈ (r2Of prev c st).2.taken) := by
      unfold r2Of
      split
      · obtain ⟨hq, hpw⟩ := mergePass_dests c.hash (st c) (posOfRow prev c)
          (travContOf (currentOf prev) c) c.parents.tail (r1Of prev c).2
        refine ⟨fun q hqm => ?_, hpw, fun i hi => mergePass_taken_mono _ _ _ _ _ _ i hi⟩
        obtain ⟨h1, h2, h3⟩ := hq q hqm
        exact ⟨(mergePass_shape _ _ _ _ _ _ q hqm).1, h1, h2, h3⟩
      · refine ⟨fun q hqm => ?_, by simp, fun i hi => hi⟩
        simp at hqm
    obtain ⟨h3q, h3pw⟩ := pass3_main c (posOfRow prev c) (currentOf prev)
      (r2Of prev c st).2 hcur_strict
    rw [builtOf_eq]
    unfold currentOf
    rw [List.filter_append, List.filter_append, List.filter_append]
    rw [initialPipesOf_filter_nonterm]
    have hr1f : (r1Of prev c).1.filter (fun p => decide (p.kind ≠ PipeKind.TERMINATES)) =
        (pass1 c (posOfRow prev c) A ⟨[], []⟩).1 := by
      rw [hr1a, List.filter_append]
      have hfA : (pass1 c (posOfRow prev c) A ⟨[], []⟩).1.filter
          (fun p => decide (p.kind ≠ PipeKind.TERMINATES)) =
          (pass1 c (posOfRow prev c) A ⟨[], []⟩).1 := by
        rw [List.filter_eq_self]
        intro q hq
        simp [(hAemit q hq).1]
      have hfB : (pass1 c (posOfRow prev c) B
          (pass1 c (posOfRow prev c) A ⟨[], []⟩).2).1.filter
          (fun p => decide (p.kind ≠ PipeKind.TERMINATES)) = [] := by
        rw [List.filter_eq_nil_iff]
        intro q hq
        simp [hBterm q hq]
      rw [hfA, hfB, List.append_nil]
    rw [hr1f]
    have hr2f : (r2Of prev c st).1.filter (fun p => decide (p.kind ≠ PipeKind.TERMINATES)) =
        (r2Of prev c st).1 := by
      rw [List.filter_eq_self]
      intro q hq
      simp [(hl2.1 q hq).1]
    rw [hr2f]
    have hr3f : (r3Of prev c st).1.filter (fun p => decide (p.kind ≠ PipeKind.TERMINATES)) =
        (r3Of prev c st).1 := by
      rw [List.filter_eq_self]
      intro q hq
      rw [r3Of_eq] at hq
      simp [pass3_shape _ _ _ _ q hq]
    rw [hr3f, r3Of_eq]
    refine List.pairwise_append.mpr ⟨List.pairwise_append.mpr
      ⟨List.pairwise_append.mpr ⟨initialPipesOf_pairwise _ _ _ _, ?_, ?_⟩, ?_, ?_⟩, ?_, ?_⟩
    · -- within PA
      refine hApw.imp ?_
      intro a b hab
      omega
    · -- P0 vs PA
      intro a ha b hb
      have ha2 : a.toPos = posOfRow prev c := (initialPipesOf_shape _ _ _ a ha).2.2.1
      have hb2 := (hAemit b hb).2.2.1
      omega
    · -- within P2
      exact hl2.2.1
    · -- (P0 ++ PA) vs P2
      intro a ha b hb
      obtain ⟨hbk, hbtk, hbtc, hbtk2⟩ := hl2.1 b hb
      rcases List.mem_append.mp ha with ha | ha
      · have ha2 : a.toPos = posOfRow prev c := (initialPipesOf_shape _ _ _ a ha).2.2.1
        intro hEq
        rw [← hEq, ha2] at hbtk
        exact hbtk hpos_taken
      · have ha2 := (hAemit a ha).2.2.2
        intro hEq
        rw [← hEq] at hbtk
        exact hbtk (hsA_mono _ ha2)
    · -- within P3
      refine h3pw.imp ?_
      intro a b hab
      omega
    · -- (P0 ++ PA ++ P2) vs P3
      intro a ha b hb
      obtain ⟨hb1, hb2, ⟨p, hpcur, hp2, hp3⟩, hb4, hb5⟩ := h3q b hb
      rcases List.mem_append.mp ha with ha | ha
      · rcases List.mem_append.mp ha with ha | ha
        · have ha2 : a.toPos = posOfRow prev c := (initialPipesOf_shape _ _ _ a ha).2.2.1
          omega
        · have ha2 := (hAemit a ha).2.2.1
          omega
      · obtain ⟨hak, hatk, hatc, hatk2⟩ := hl2.1 a ha
        rcases hb4 with hb4 | hb4
        · intro hEq
          rw [hEq] at hatk2
          exact hb4 hatk2
        · intro hEq
          rw [hEq, hb4, ← hp2] at hatc
          exact hatc (mem_travContOf _ _ p hpcur hp3)




lemma pipeSetsAux_distinct (st : Commit → Nat) :
    ∀ (cs : List Commit) (pipes : List Pipe),
      List.Sorted pipeLe pipes → NonTermDistinct pipes →
      goodTrace st pipes cs = true →
      ∀ row ∈ pipeSetsAux st pipes cs, NonTermDistinct row := by
  intro cs
  induction cs with
  | nil =>
    intro pipes hsort hdist hgood row hrow
    simp [pipeSetsAux] at hrow
  | cons c cs ih =>
    intro pipes hsort hdist hgood row hrow
    simp only [goodTrace, Bool.and_eq_true] at hgood
    obtain ⟨hok0, hrest⟩ := hgood
    have hok : c.parents.length ≤ 1 ∨
        ∃ p ∈ currentOf pipes, equalHashes p.toHash c.hash = true := by
      rw [Bool.or_eq_true] at hok0
      rcases hok0 with h | h
      · exact Or.inl (decide_eq_true_eq.mp h)
      · right
        unfold matchedBool at h
        rw [List.any_eq_true] at h
        obtain ⟨p, hp, hpm⟩ := h
        exact ⟨p, hp, hpm⟩
    have hnext : NonTermDistinct (getNextPipes pipes c st) :=
      step_nonterm_distinct pipes c st hsort hdist hok
    have hnextsorted : List.Sorted pipeLe (getNextPipes pipes c st) :=
      List.sorted_insertionSort pipeLe _
    simp only [pipeSetsAux] at hrow
    rcases List.mem_cons.mp hrow with rfl | hrow
    · exact hnext
    · exact ih (getNextPipes pipes c st) hnextsorted hnext hrest row hrow

/-- C1 amended: every row produced by the fold has pairwise distinct
destination lanes among its non-terminating pipes, provided the trace
condition holds: along the fold, every commit with two or more parents is
matched by a surviving pipe of the previous row (true in particular for
any single-root history; a fresh merge commit of a multi-root log can
violate it). -/
theorem rows_nonterm_distinct (commits : List Commit) (getStyle : Commit → Nat)
    (hg : goodTrace getStyle (seedListOf commits) commits = true) :
    ∀ row ∈ GetPipeSets commits getStyle, NonTermDistinct row := by
  cases commits with
  | nil =>
    intro row hrow
    simp [GetPipeSets] at hrow
  | cons c0 cs =>
    intro row hrow
    have hseed_sorted : List.Sorted pipeLe (seedListOf (c0 :: cs)) := by
      simp [seedListOf, List.sorted_singleton]
    have hseed_dist : NonTermDistinct (seedListOf (c0 :: cs)) := by
      simp [NonTermDistinct, currentOf, seedListOf, seedPipe]
    exact pipeSetsAux_distinct getStyle (c0 :: cs) _ hseed_sorted hseed_dist hg row hrow

/-- Witness for the amended C1 on the linear chain. -/
theorem rows_nonterm_distinct_witness :
    (goodTrace noStyle (seedListOf chainCommits) chainCommits = true) ∧
    ([(⟨0, 0, "START", "c3", PipeKind.TERMINATES, 0⟩ : Pipe),
      ⟨0, 0, "c3", "c2", .STARTS, 0⟩] ∈ GetPipeSets chainCommits noStyle) ∧
    NonTermDistinct [(⟨0, 0, "START", "c3", PipeKind.TERMINATES, 0⟩ : Pipe),
      ⟨0, 0, "c3", "c2", .STARTS, 0⟩] :=
  ⟨by decide, by decide,
   rows_nonterm_distinct chainCommits noStyle (by decide) _ (by decide)⟩


end LazygitGraph
